import Mathlib

/-!
Verification of the course-reminder dashboard (`app.py`).

The development shallowly embeds the deterministic rules engine of the
application: week-range matching (`check_week_range`), academic-week
computation (`get_week_num`), the effective-schedule merge
(`get_today_courses`), the reminder-window scan (`check_remind`), the
adjustment-deletion handler and the spreadsheet-import block.

Conventions used throughout:
* instants (`datetime.datetime`) are integers counting seconds since the
  epoch (1970-01-01 00:00:00); `datetime.date` values are day numbers
  (seconds divided by 86400, floored);
* Python strings are handled through their character lists (`String.data`);
* fallible Python code (`int(...)`, unpacking, `list.pop`, the pandas
  truth-value test) is modelled with `Option`/`Except`, and `try/except`
  blocks absorb the `error` case exactly where the source does.
-/

/-! ### Python character / integer-literal helpers -/

/-- ASCII decimal digit test (the digits accepted by Python `int`). -/
def isDig (c : Char) : Bool := 48 ≤ c.toNat && c.toNat ≤ 57

/-- Whitespace stripped by Python `int(str)`: space, \t, \n, \r, \v, \f. -/
def pyIsSpace (c : Char) : Bool :=
  c.toNat = 32 || c.toNat = 9 || c.toNat = 10 || c.toNat = 13 ||
  c.toNat = 11 || c.toNat = 12

/-- Numeric value of a digit string (most significant first). -/
def digitsVal (cs : List Char) : Nat :=
  cs.foldl (fun a c => 10 * a + (c.toNat - 48)) 0

/-- Digit-run scanner for Python `int`: after the first digit, digits may be
separated by single underscores (`1_0` parses, `1__0`/`1_` do not).
`acc` is the value of the digits already consumed. -/
def digitsParseAux (acc : Nat) : List Char → Option Nat
  | [] => some acc
  | c :: rest =>
    if isDig c then digitsParseAux (10 * acc + (c.toNat - 48)) rest
    else if c = '_' then
      match rest with
      | c2 :: rest2 =>
        if isDig c2 then digitsParseAux (10 * acc + (c2.toNat - 48)) rest2
        else none
      | [] => none
    else none

/-- Parse a nonempty digit run (first character must be a digit). -/
def digitsParse : List Char → Option Nat
  | [] => none
  | c :: rest => if isDig c then digitsParseAux (c.toNat - 48) rest else none

/-- Python `int(str)`: optional surrounding whitespace, optional sign,
then a digit run.  `none` models `ValueError`. -/
def pyIntStr? (cs : List Char) : Option Int :=
  match (((cs.dropWhile pyIsSpace).reverse.dropWhile pyIsSpace).reverse :
      List Char) with
  | [] => none
  | c :: r =>
    if c = '+' then (digitsParse r).map (fun n => (n : Int))
    else if c = '-' then (digitsParse r).map (fun n => -(n : Int))
    else (digitsParse (c :: r)).map (fun n => (n : Int))

/-- Python `str.split(sep)` for a single-character separator:
`"".split(sep) = [""]`, adjacent separators produce empty fields. -/
def charSplit (sep : Char) : List Char → List (List Char)
  | [] => [[]]
  | c :: rest =>
    match charSplit sep rest with
    | [] => [[c]]
    | h :: t => if c = sep then [] :: h :: t else (c :: h) :: t

/-! ### `check_week_range` (app.py lines 47-70) -/

/-- The interval branch (`"-" in week_str`):
`start_week, end_week = map(int, week_str.split("-"))`, then the range
test; any `ValueError` (wrong arity or unparsable field) gives false. -/
def dashBranch (cs : List Char) (current_week : Int) : Bool :=
  match charSplit '-' cs with
  | [x, y] =>
    match pyIntStr? x, pyIntStr? y with
    | some start_week, some end_week =>
      decide (start_week ≤ current_week ∧ current_week ≤ end_week)
    | _, _ => false
  | _ => false

/-- The comma branch: `week_list = list(map(int, week_str.split(",")))`
then membership; any `ValueError` gives false. -/
def commaBranch (cs : List Char) (current_week : Int) : Bool :=
  match (charSplit ',' cs).mapM pyIntStr? with
  | some week_list => decide (current_week ∈ week_list)
  | none => false

/-- The single-week branch: `int(week_str) == current_week`;
`ValueError` gives false. -/
def singleBranch (cs : List Char) (current_week : Int) : Bool :=
  match pyIntStr? cs with
  | some n => decide (n = current_week)
  | none => false

/-- `check_week_range(week_str, current_week)`.  `none` models a
missing/NaN cell (`pd.isna`).  Branch order follows the source:
empty, then `-` interval, then `,` list, then single integer; every
`int` parse failure is absorbed to `false` by the `try/except`s. -/
def check_week_range (week_str : Option String) (current_week : Int) : Bool :=
  match week_str with
  | none => true
  | some s =>
    if s.data = [] then true
    else if s.data.contains '-' then dashBranch s.data current_week
    else if s.data.contains ',' then commaBranch s.data current_week
    else singleBranch s.data current_week

/-- The two integers the interval branch extracts from an expression
containing `-`: the split must produce exactly two fields and both must
parse as Python integers. -/
def twoIntsOf (cs : List Char) : Option (Int × Int) :=
  match charSplit '-' cs with
  | [x, y] =>
    match pyIntStr? x, pyIntStr? y with
    | some a, some b => some (a, b)
    | _, _ => none
  | _ => none

/-- Comma-separated concatenation of the given fields (used to state the
claims about list expressions such as `"3,5,7"`). -/
def joinComma : List (List Char) → List Char
  | [] => []
  | [p] => p
  | p :: ps => p ++ ',' :: joinComma ps

/-! ### Exception-transparent version of `check_week_range` (claim C10).

`check_week_range_exc` makes each raising operation explicit
(`Except`-valued) and translates the `try/except` handlers; comparing it
with the `Bool` version certifies that every parse failure is absorbed
into `false` and no exception escapes. -/

/-- Python `int(str)` with its `ValueError` made explicit. -/
def pyIntE (cs : List Char) : Except String Int :=
  match pyIntStr? cs with
  | some n => .ok n
  | none => .error "ValueError: invalid literal for int() with base 10"

/-- Two-variable unpacking `a, b = xs`, raising on any other arity. -/
def unpack2E {β : Type} : List β → Except String (β × β)
  | [a, b] => .ok (a, b)
  | _ => .error "ValueError: unpacking requires exactly two values"

/-- `list(map(int, xs))` with the first `ValueError` propagated. -/
def mapIntE : List (List Char) → Except String (List Int)
  | [] => .ok []
  | x :: xs =>
    match pyIntE x, mapIntE xs with
    | .ok n, .ok ns => .ok (n :: ns)
    | .error e, _ => .error e
    | _, .error e => .error e

/-- A `try: ... except: return False` handler around a raising body. -/
def tryElseFalse (r : Except String Bool) : Except String Bool :=
  match r with
  | .ok v => .ok v
  | .error _ => .ok false

/-- Raising body of the interval branch. -/
def dashBranchE (cs : List Char) (current_week : Int) : Except String Bool := do
  let p ← unpack2E (charSplit '-' cs)
  let a ← pyIntE p.1
  let b ← pyIntE p.2
  pure (decide (a ≤ current_week ∧ current_week ≤ b))

/-- Raising body of the comma branch. -/
def commaBranchE (cs : List Char) (current_week : Int) : Except String Bool := do
  let l ← mapIntE (charSplit ',' cs)
  pure (decide (current_week ∈ l))

/-- Raising body of the single-week branch. -/
def singleBranchE (cs : List Char) (current_week : Int) : Except String Bool := do
  let n ← pyIntE cs
  pure (decide (n = current_week))

/-- `check_week_range` with explicit exception plumbing: each branch body
may raise, and the surrounding `try/except` turns any raise into
`.ok false`.  The result type shows which exceptions can escape the
function. -/
def check_week_range_exc (week_str : Option String) (current_week : Int) :
    Except String Bool :=
  match week_str with
  | none => .ok true
  | some s =>
    if s.data = [] then .ok true
    else if s.data.contains '-' then tryElseFalse (dashBranchE s.data current_week)
    else if s.data.contains ',' then tryElseFalse (commaBranchE s.data current_week)
    else tryElseFalse (singleBranchE s.data current_week)

/-! ### Time parsing (`parse_course_time`, app.py lines 26-32) -/

/-- `strptime(s, "%H:%M")` modelled on the CPython pattern
`(2[0-3]|[0-1]\d|\d):([0-5]\d|\d)` with whole-string match: seconds into
the day, or `none` on `ValueError`. -/
def parseHM (cs : List Char) : Option Nat :=
  match cs with
  | c1 :: c2 :: ':' :: rest =>
    -- two-digit hour alternatives 2[0-3] and [0-1]\d
    if (c1 = '2' && isDig c2 && c2.toNat ≤ 51) ||
       ((c1 = '0' || c1 = '1') && isDig c2) then
      match rest with
      | [m1, m2] =>
        if isDig m1 && m1.toNat ≤ 53 && isDig m2 then
          some (((c1.toNat - 48) * 10 + (c2.toNat - 48)) * 3600 +
            ((m1.toNat - 48) * 10 + (m2.toNat - 48)) * 60)
        else none
      | [m1] =>
        if isDig m1 then
          some (((c1.toNat - 48) * 10 + (c2.toNat - 48)) * 3600 +
            (m1.toNat - 48) * 60)
        else none
      | _ => none
    else none
  | c1 :: ':' :: rest =>
    -- single-digit hour \d
    if isDig c1 then
      match rest with
      | [m1, m2] =>
        if isDig m1 && m1.toNat ≤ 53 && isDig m2 then
          some ((c1.toNat - 48) * 3600 +
            ((m1.toNat - 48) * 10 + (m2.toNat - 48)) * 60)
        else none
      | [m1] =>
        if isDig m1 then some ((c1.toNat - 48) * 3600 + (m1.toNat - 48) * 60)
        else none
      | _ => none
    else none
  | _ => none

/-- `parse_course_time(time_str)`: on `ValueError` the UI reports a format
error and the function substitutes midnight (`time(0, 0)`). -/
def parse_course_time (time_str : String) : Nat :=
  match parseHM time_str.data with
  | some t => t
  | none => 0

/-! ### Date parsing and `get_week_num` (app.py lines 34-45) -/

/-- Days in a month of the proleptic Gregorian calendar
(`datetime.date` validation). -/
def daysInMonth (y m : Nat) : Nat :=
  if m = 2 then
    if y % 4 = 0 && (y % 100 ≠ 0 || y % 400 = 0) then 29 else 28
  else if m = 4 || m = 6 || m = 9 || m = 11 then 30
  else 31

/-- Day number of a Gregorian date counted from 1970-01-01 (the civil
day-count algorithm), for years 1..9999 as accepted by `datetime`. -/
def daysFromCivil (y m d : Nat) : Int :=
  let y' : Int := (y : Int) - (if m ≤ 2 then 1 else 0)
  let era : Int := y'.fdiv 400
  let yoe : Int := y' - era * 400
  let mp : Int := ((m : Int) + 9) % 12
  let doy : Int := (153 * mp + 2).fdiv 5 + (d : Int) - 1
  let doe : Int := yoe * 365 + yoe.fdiv 4 - yoe.fdiv 100 + doy
  era * 146097 + doe - 719468

/-- Split a leading run of exactly four digits: the CPython `%Y` pattern
is `\d\d\d\d`, so shorter years fail outright and with five or more
digits the fourth is followed by a digit where the literal `-` is
required. -/
def takeYearDigits (cs : List Char) : Option (Nat × List Char) :=
  let run := cs.takeWhile isDig
  if run.length = 4 then some (digitsVal run, cs.drop 4) else none

/-- Split a leading digit run of at most 2 characters (the digit
alternatives of `%m`/`%d`; range validation happens at the call site,
matching the regex alternatives plus `date()` validation). -/
def takeTwoDigits (cs : List Char) : Option (Nat × List Char) :=
  let run := cs.takeWhile isDig
  if run.length = 0 || 2 < run.length then none
  else some (digitsVal run, cs.drop run.length)

/-- The `%d` day field: one or two digits, or the pattern's space-padded
alternative `' [1-9]'`. -/
def takeDay (cs : List Char) : Option (Nat × List Char) :=
  match cs with
  | ' ' :: c :: rest =>
    if 49 ≤ c.toNat && c.toNat ≤ 57 then some (c.toNat - 48, rest) else none
  | _ => takeTwoDigits cs

/-- `strptime(s, "%Y-%m-%d")` followed by `datetime` validation: exactly
four year digits, `-`, month (`1[0-2]|0[1-9]|[1-9]`), `-`, day
(digits or space-padded single digit), nothing left over, and the date
must exist; returns the day number from the epoch, `none` on any
parse/validation failure (the caller's `except` then defaults). -/
def parseDateYMD (s : String) : Option Int :=
  match takeYearDigits s.data with
  | none => none
  | some (y, r1) =>
    match r1 with
    | '-' :: r2 =>
      match takeTwoDigits r2 with
      | none => none
      | some (m, r3) =>
        match r3 with
        | '-' :: r4 =>
          match takeDay r4 with
          | none => none
          | some (d, r5) =>
            if r5 = [] && 1 ≤ y && 1 ≤ m && m ≤ 12 && 1 ≤ d &&
                d ≤ daysInMonth y m then
              some (daysFromCivil y m d)
            else none
        | _ => none
    | _ => none

/-- `get_week_num()`: pre-semester gives 0, otherwise
`(today - start).days // 7 + 1`; an unparsable semester-start string is
caught and defaults to week 1.  `semester_start` is the session string,
`now` the current instant in seconds. -/
def get_week_num (semester_start : String) (now : Int) : Int :=
  match parseDateYMD semester_start with
  | none => 1
  | some d =>
    if now < d * 86400 then 0
    else ((now - d * 86400).fdiv 86400).fdiv 7 + 1

/-- `datetime.isoweekday()` of the instant `now` (1 = Monday .. 7 = Sunday);
the epoch day 1970-01-01 was a Thursday. -/
def todayWeekday (now : Int) : Int := ((now.fdiv 86400) + 3) % 7 + 1

/-! ### Data model (session state, app.py lines 13-23) -/

/-- One row of the course table: 星期, 开始时间, 结束时间, 课程名称, 地点,
教师, 周次 (the week-range cell may be missing/NaN). -/
structure CourseRow where
  weekday : Int
  start : String
  endT : String
  name : String
  place : String
  teacher : String
  weekRange : Option String
deriving DecidableEq, Repr, Inhabited

/-- One adjustment record as appended by the form handler
(app.py lines 208-218); all fields are form strings. -/
structure Adjust where
  weekday : Int
  weekRange : String
  origName : String
  origStart : String
  newName : String
  newStart : String
  newEnd : String
  newPlace : String
  newTeacher : String
deriving DecidableEq, Repr, Inhabited

/-- The session state fields the rules engine reads and writes. -/
structure SessionState where
  course_data : Option (List CourseRow)
  remind_minutes : Int
  adjust_courses : List Adjust
  current_remind : Option CourseRow
  semester_start : String
deriving DecidableEq, Repr, Inhabited

/-! ### The sort behind `sort_values` (app.py lines 108-110).

`DataFrame.sort_values` with its default `kind="quicksort"` argsorts the
key column with numpy's introsort for object arrays (median-of-3
quicksort, insertion sort on runs of at most 16 elements, heapsort once
the depth budget is exhausted) and reorders the rows by the resulting
index permutation.  The port below works on the row list directly and
compares rows through a numeric key, which is how the comparison-based
argsort behaves extensionally.  numpy shares one depth counter across its
explicit work stack; the recursion here gives each branch its own copy,
which can differ only on adversarial inputs that exhaust the budget and
are never considered in this development. -/

section NpSort

variable {α : Type} [Inhabited α] (key : α → Nat)

/-- Insertion phase of the introsort (stable; used for runs of ≤ 16
elements): insert `x` into the sorted prefix after all keys ≤ its own. -/
def insR (x : α) : List α → List α
  | [] => [x]
  | y :: ys => if key x < key y then x :: y :: ys else y :: insR x ys

/-- Left-to-right insertion sort of a whole run. -/
def insSortL (l : List α) : List α := l.foldl (fun acc x => insR key x acc) []

/-- Swap two positions of a list (no-op if either is out of range). -/
def lswap (l : List α) (i j : Nat) : List α :=
  match l.get? i, l.get? j with
  | some x, some y => (l.set i y).set j x
  | _, _ => l

/-- `do ++pi; while (v[pi] < pivot)`: first index after `i` whose key is
not below the pivot (defensively capped at the end of the run). -/
def scanUp (l : List α) (vp : Nat) : Nat → Nat → Nat
  | _, 0 => l.length
  | i, fuel + 1 =>
    let j := i + 1
    if j + 1 < l.length && key (l.getD j default) < vp then
      scanUp l vp j fuel
    else j

/-- `do --pj; while (pivot < v[pj])`: first index before `j` whose key is
not above the pivot (defensively capped at 0). -/
def scanDown (l : List α) (vp : Nat) : Nat → Nat → Nat
  | _, 0 => 0
  | j, fuel + 1 =>
    let i := j - 1
    if 0 < i && vp < key (l.getD i default) then
      scanDown l vp i fuel
    else i

/-- Hoare partition scan loop: advance both cursors, stop when they
cross, otherwise swap and continue. -/
def partLoop (vp : Nat) : Nat → List α → Nat → Nat → (List α × Nat)
  | 0, l, pi, _ => (l, pi)
  | fuel + 1, l, pi, pj =>
    let pi' := scanUp key l vp pi (l.length + 1)
    let pj' := scanDown key l vp pj (l.length + 1)
    if pj' ≤ pi' then (l, pi')
    else partLoop vp fuel (lswap l pi' pj') pi' pj'

/-- One partition step on a run of `n ≥ 17` elements occupying the whole
list: median-of-3 pivot selection, pivot parked at `n-2`, scan loop, and
the final swap placing the pivot at the split point. -/
def partitionSeg (l : List α) : List α × Nat :=
  let n := l.length
  let pm := (n - 1) / 2
  let l := if key (l.getD pm default) < key (l.getD 0 default) then
    lswap l pm 0 else l
  let l := if key (l.getD (n - 1) default) < key (l.getD pm default) then
    lswap l (n - 1) pm else l
  let l := if key (l.getD pm default) < key (l.getD 0 default) then
    lswap l pm 0 else l
  let vp := key (l.getD pm default)
  let l := lswap l pm (n - 2)
  let (l, pi) := partLoop key vp (n + 1) l 0 (n - 2)
  (lswap l pi (n - 2), pi)

/-- Sift step of numpy's heapsort fallback (1-indexed heap of size `n`). -/
def heapSift (tmp : α) : Nat → List α → Nat → Nat → Nat → List α
  | 0, l, i, _, _ => l.set (i - 1) tmp
  | fuel + 1, l, i, j, n =>
    if j ≤ n then
      let j := if j < n &&
          key (l.getD (j - 1) default) < key (l.getD j default) then j + 1
        else j
      if key tmp < key (l.getD (j - 1) default) then
        heapSift tmp fuel (l.set (i - 1) (l.getD (j - 1) default)) j (j + j) n
      else l.set (i - 1) tmp
    else l.set (i - 1) tmp

/-- Heap construction, sifting roots `li = n/2, …, 1`. -/
def heapBuild : Nat → List α → Nat → List α
  | 0, l, _ => l
  | li + 1, l, n =>
    heapBuild li
      (heapSift key (l.getD li default) (n + 2) l (li + 1) ((li + 1) * 2) n) n

/-- Heap extraction: repeatedly move the root behind the shrinking heap. -/
def heapExtract : Nat → List α → List α
  | 0, l => l
  | 1, l => l
  | n + 2, l =>
    let tmp := l.getD (n + 1) default
    let l := l.set (n + 1) (l.getD 0 default)
    heapExtract (n + 1) (heapSift key tmp (n + 3) l 1 2 (n + 1))

/-- numpy heapsort fallback for a whole run. -/
def npHeapsort (l : List α) : List α :=
  heapExtract key l.length (heapBuild key (l.length / 2) l l.length)

/-- The introsort recursion: runs of at most 16 elements are insertion
sorted, an exhausted depth budget falls back to heapsort, otherwise
partition and recurse on both sides of the pivot. -/
def npSortSeg : Nat → Int → List α → List α
  | 0, _, l => l
  | fuel + 1, depth, l =>
    if l.length ≤ 16 then insSortL key l
    else if depth < 0 then npHeapsort key l
    else
      let p := partitionSeg key l
      npSortSeg fuel (depth - 1) (p.1.take p.2) ++
        p.1.getD p.2 default ::
          npSortSeg fuel (depth - 1) (p.1.drop (p.2 + 1))

/-- numpy argsort (`kind="quicksort"`) applied to the rows themselves:
the depth budget is `2 * msb(n)` as in `npy_aquicksort`. -/
def npArgsortModel (l : List α) : List α :=
  npSortSeg key (l.length + 1) (2 * Nat.log2 l.length) l

end NpSort

/-- Sort key of a row: its parsed start time
(`today_courses["开始时间"].apply(parse_course_time)`). -/
def rowKey (r : CourseRow) : Nat := parse_course_time r.start

/-- `sort_values("开始时间_obj")` on a row list. -/
def sortRowsByStart (l : List CourseRow) : List CourseRow :=
  npArgsortModel rowKey l

/-- The 1-indexed max-heap property on the prefix `a[1..m]` of a list
(every element is at most its parent), used to verify the heapsort
fallback of the introsort port. -/
def heapOrdered {α : Type} [Inhabited α] (key : α → Nat) (l : List α)
    (m : Nat) : Prop :=
  ∀ j, 2 ≤ j → j ≤ m →
    key (l.getD (j - 1) default) ≤ key (l.getD (j / 2 - 1) default)

/-! ### `get_today_courses` (app.py lines 72-111) -/

/-- The mask `(开始时间 == 原开始时间) & (课程名称 == 原课程名)`. -/
def rowMatches (a : Adjust) (r : CourseRow) : Bool :=
  r.start == a.origStart && r.name == a.origName

/-- The `.loc` assignment replacing 课程名称/地点/教师/开始时间/结束时间 of a
masked row (星期 and 周次 are untouched). -/
def replaceRow (a : Adjust) (r : CourseRow) : CourseRow :=
  { r with name := a.newName, place := a.newPlace, teacher := a.newTeacher,
           start := a.newStart, endT := a.newEnd }

/-- The synthetic row appended by `pd.concat` when the mask is empty. -/
def syntheticRow (a : Adjust) : CourseRow :=
  { weekday := a.weekday, start := a.newStart, endT := a.newEnd,
    name := a.newName, place := a.newPlace, teacher := a.newTeacher,
    weekRange := some a.weekRange }

/-- Merge of one adjustment into the working frame: if any row is masked,
replace every masked row in place, otherwise append the synthetic row. -/
def applyAdjust (rows : List CourseRow) (a : Adjust) : List CourseRow :=
  if rows.any (rowMatches a) then
    rows.map (fun r => if rowMatches a r then replaceRow a r else r)
  else rows ++ [syntheticRow a]

/-- The base-schedule selection: rows of today's weekday whose week range
matches the current week (row order of the frame is preserved). -/
def todaySelected (st : SessionState) (now : Int) : List CourseRow :=
  match st.course_data with
  | none => []
  | some rows =>
    rows.filter fun r =>
      r.weekday == todayWeekday now &&
      check_week_range r.weekRange (get_week_num st.semester_start now)

/-- The working frame after the adjustment loop (before sorting); when no
schedule was imported the function has already returned the empty frame. -/
def todayMerged (st : SessionState) (now : Int) : List CourseRow :=
  match st.course_data with
  | none => []
  | some _ =>
    st.adjust_courses.foldl
      (fun acc a =>
        if a.weekday == todayWeekday now &&
            check_week_range (some a.weekRange)
              (get_week_num st.semester_start now) then
          applyAdjust acc a
        else acc)
      (todaySelected st now)

/-- `get_today_courses()`: empty frame without an import, otherwise the
merged frame sorted by parsed start time. -/
def get_today_courses (st : SessionState) (now : Int) : List CourseRow :=
  match st.course_data with
  | none => []
  | some _ => sortRowsByStart (todayMerged st now)

/-! ### `check_remind` (app.py lines 113-131) -/

/-- `datetime.combine(now.date(), t)` in seconds. -/
def combineToday (now : Int) (t : Nat) : Int := (now.fdiv 86400) * 86400 + t

/-- The reminder-window test for one row:
`now <= course_start <= now + remind_minutes`. -/
def inWindow (now m : Int) (r : CourseRow) : Bool :=
  decide (now ≤ combineToday now (parse_course_time r.start)) &&
  decide (combineToday now (parse_course_time r.start) ≤ now + m * 60)

/-- The loop of `check_remind`: the first row of the frame (in its given
order) whose start lies in the window, else nothing. -/
def findUpcoming (rows : List CourseRow) (now m : Int) : Option CourseRow :=
  match rows with
  | [] => none
  | r :: rest => if inWindow now m r then some r else findUpcoming rest now m

/-- `check_remind()`: recompute today's frame and store the first row in
the reminder window (or `None`) into `current_remind`. -/
def check_remind (st : SessionState) (now : Int) : SessionState :=
  { st with current_remind :=
      findUpcoming (get_today_courses st now) now st.remind_minutes }

/-! ### Adjustment deletion (app.py lines 228-231) -/

/-- Index normalisation of Python sequence item access: negative indices
count from the end. -/
def pyIndexNorm (i : Int) (n : Nat) : Int := if i < 0 then i + n else i

/-- Python `list.pop(i)`: negative indices count from the end, anything
out of range raises `IndexError`. -/
def pyPop {α : Type} (l : List α) (i : Int) : Except String (α × List α) :=
  if h : 0 ≤ pyIndexNorm i l.length ∧ pyIndexNorm i l.length < l.length then
    (.ok (l.get ⟨(pyIndexNorm i l.length).toNat, by omega⟩,
      l.eraseIdx (pyIndexNorm i l.length).toNat))
  else .error "IndexError: pop index out of range"

/-- The delete-button handler: `st.session_state.adjust_courses.pop(i)`
with no surrounding handler, so an `IndexError` escapes to the page. -/
def removeAdjustHandler (st : SessionState) (i : Int) :
    Except String SessionState :=
  match pyPop st.adjust_courses i with
  | .ok p => .ok { st with adjust_courses := p.2 }
  | .error e => .error e

/-! ### The import block (app.py lines 164-178) -/

/-- A cell of the uploaded 星期 column as `read_excel` delivers it. -/
inductive PyCell : Type
  | numI : Int → PyCell
  | strC : String → PyCell
  | nan : PyCell
deriving DecidableEq, Repr, Inhabited

/-- One uploaded row: the raw 星期 cell plus the six remaining columns. -/
structure UploadRow where
  weekdayCell : PyCell
  start : String
  endT : String
  name : String
  place : String
  teacher : String
  weekRange : Option String
deriving DecidableEq, Repr, Inhabited

/-- An uploaded sheet: its column set and its rows. -/
structure UploadTable where
  cols : List String
  rows : List UploadRow
deriving DecidableEq, Repr, Inhabited

/-- `pd.to_numeric(errors="coerce")` on a 星期 cell (numeric-string cells
are modelled as integer literals; any unparsable cell coerces to NaN). -/
def toNumericCoerce : PyCell → Option Int
  | .numI n => some n
  | .strC s => pyIntStr? s.data
  | .nan => none

/-- The converted 星期 column after `.fillna(0).astype(int)`. -/
def weekdayConverted (t : UploadTable) : List Int :=
  t.rows.map (fun r => (toNumericCoerce r.weekdayCell).getD 0)

/-- A row with the converted weekday substituted into the frame. -/
def convertRow (r : UploadRow) : CourseRow :=
  { weekday := (toNumericCoerce r.weekdayCell).getD 0, start := r.start,
    endT := r.endT, name := r.name, place := r.place, teacher := r.teacher,
    weekRange := r.weekRange }

/-- Python `1 & w` (bitwise AND with 1): 1 on odd integers, else 0. -/
def pyLand1 (w : Int) : Int := w % 2

/-- `bool(series)`: pandas `NDFrame` refuses truth-testing outright, for
every length, with `ValueError: The truth value of a Series is
ambiguous.` -/
def seriesBool (_mask : List Bool) : Except String Bool :=
  .error "ValueError: The truth value of a Series is ambiguous."

/-- The filter expression `df["星期"] >= 1 & df["星期"] <= 7` as Python
parses it: `&` binds tighter than the comparisons, giving the chained
comparison `df["星期"] >= (1 & df["星期"]) <= 7`, whose implicit `and`
truth-tests the first comparison Series. -/
def weekdayFilterExpr (ws : List Int) : Except String (List Bool) :=
  let t := ws.map pyLand1
  let c1 := List.zipWith (fun a b => decide (b ≤ a)) ws t
  match seriesBool c1 with
  | .error e => .error e
  | .ok b => if b then .ok (t.map (fun x => decide (x ≤ 7))) else .ok c1

/-- Boolean-mask row selection `df[mask]`. -/
def applyMask (rows : List CourseRow) (mask : List Bool) : List CourseRow :=
  (rows.zip mask).filterMap (fun p => if p.2 then some p.1 else none)

/-- The required column names of the template. -/
def requiredCols : List String :=
  ["星期", "开始时间", "结束时间", "课程名称", "地点", "教师", "周次"]

/-- The upload branch (app.py lines 164-178): check the required columns,
convert and filter the 星期 column, store the frame on success; any
exception in the `try` body is caught and reported, leaving
`course_data` untouched.  Returns the new `course_data` and the message
shown to the user. -/
def importBlock (current : Option (List CourseRow)) (t : UploadTable) :
    Option (List CourseRow) × String :=
  if requiredCols.all (fun c => t.cols.contains c) then
    match weekdayFilterExpr (weekdayConverted t) with
    | .ok mask => (some (applyMask (t.rows.map convertRow) mask), "课程表导入成功！")
    | .error e => (current, "导入失败：" ++ e)
  else (current, "缺少必要列")

/-- What claim C1 requires of an output row `r'` opposite an input row
`r` when an adjustment is merged and some row is masked: masked rows get
the adjustment's five new fields (weekday and week range untouched),
unmasked rows are unchanged. -/
def replacedSpec (a : Adjust) (r r' : CourseRow) : Prop :=
  if r.start = a.origStart ∧ r.name = a.origName then
    r'.name = a.newName ∧ r'.place = a.newPlace ∧ r'.teacher = a.newTeacher ∧
    r'.start = a.newStart ∧ r'.endT = a.newEnd ∧ r'.weekday = r.weekday ∧
    r'.weekRange = r.weekRange
  else r' = r

/-! ### Concrete fixtures used by witnesses and counterexamples -/

/-- A row with the given weekday, times and name (location/instructor
empty, no week-range restriction). -/
def mkRow (wd : Int) (st en nm : String) : CourseRow :=
  { weekday := wd, start := st, endT := en, name := nm, place := "",
    teacher := "", weekRange := none }

/-- Seventeen distinct course names. -/
def names17 : List String :=
  ["C01", "C02", "C03", "C04", "C05", "C06", "C07", "C08", "C09", "C10",
   "C11", "C12", "C13", "C14", "C15", "C16", "C17"]

/-- Seventeen Thursday rows that all start at 08:00 (equal sort keys). -/
def rows17 : List CourseRow := names17.map (fun n => mkRow 4 "08:00" "08:45" n)

/-- A session whose schedule is `rows17` and that has no adjustments;
instant 0 (1970-01-01, a Thursday, before the semester start). -/
def st17 : SessionState :=
  { course_data := some rows17, remind_minutes := 10, adjust_courses := [],
    current_remind := none, semester_start := "2025-09-01" }

/-- A sample adjustment: move Math 08:00 to Physics 08:00-08:45. -/
def adjMath : Adjust :=
  { weekday := 4, weekRange := "1-16", origName := "Math",
    origStart := "08:00", newName := "Physics", newStart := "08:00",
    newEnd := "08:45", newPlace := "B2", newTeacher := "Li" }

/-- A session with one adjustment recorded. -/
def stOneAdj : SessionState :=
  { course_data := some [mkRow 4 "08:00" "08:45" "Math",
      mkRow 4 "10:00" "10:45" "Phys"],
    remind_minutes := 10, adjust_courses := [adjMath],
    current_remind := none, semester_start := "2025-09-01" }

/-- An uploaded sheet with exactly the required columns and two perfectly
valid rows (weekdays 1 and 2). -/
def tableTwoRows : UploadTable :=
  { cols := requiredCols,
    rows := [
      { weekdayCell := .numI 1, start := "08:00", endT := "08:45",
        name := "Math", place := "A1", teacher := "Wang",
        weekRange := some "1-16" },
      { weekdayCell := .numI 2, start := "10:00", endT := "10:45",
        name := "Phys", place := "A2", teacher := "Li",
        weekRange := some "1-16" }] }

/-! ### Helper lemmas about the Python string primitives -/

theorem charSplit_cons (sep c : Char) (rest : List Char) :
    charSplit sep (c :: rest) =
      match charSplit sep rest with
      | [] => [[c]]
      | h :: t => if c = sep then [] :: h :: t else (c :: h) :: t := rfl

theorem charSplit_ne_nil (sep : Char) (l : List Char) :
    charSplit sep l ≠ [] := by
  cases l with
  | nil => simp [charSplit]
  | cons c rest =>
    rw [charSplit_cons]
    cases h : charSplit sep rest with
    | nil => simp
    | cons h t =>
      by_cases hc : c = sep <;> simp [hc]

theorem charSplit_append (sep : Char) (a rest : List Char) (h : sep ∉ a) :
    charSplit sep (a ++ sep :: rest) = a :: charSplit sep rest := by
  induction a with
  | nil =>
    simp only [List.nil_append]
    rw [charSplit_cons]
    cases hr : charSplit sep rest with
    | nil => exact absurd hr (charSplit_ne_nil sep rest)
    | cons x t => simp
  | cons c a ih =>
    have hc : c ≠ sep := fun hcs => h (hcs ▸ List.mem_cons_self c a)
    have ha : sep ∉ a := fun hm => h (List.mem_cons_of_mem c hm)
    simp only [List.cons_append]
    rw [charSplit_cons, ih ha]
    simp [hc]

theorem charSplit_of_not_mem (sep : Char) (b : List Char) (h : sep ∉ b) :
    charSplit sep b = [b] := by
  induction b with
  | nil => rfl
  | cons c b ih =>
    have hc : c ≠ sep := fun hcs => h (hcs ▸ List.mem_cons_self c b)
    have hb : sep ∉ b := fun hm => h (List.mem_cons_of_mem c hm)
    rw [charSplit_cons, ih hb]
    simp [hc]

theorem dropWhile_eq_self_of (p : Char → Bool) (l : List Char)
    (h : ∀ c ∈ l, p c = false) : l.dropWhile p = l := by
  cases l with
  | nil => rfl
  | cons c t => simp [List.dropWhile_cons, h c (List.mem_cons_self c t)]

theorem digitsParseAux_cons (acc : Nat) (c : Char) (rest : List Char)
    (h : isDig c = true) :
    digitsParseAux acc (c :: rest) =
      digitsParseAux (10 * acc + (c.toNat - 48)) rest := by
  conv_lhs => unfold digitsParseAux
  rw [h]
  simp

theorem digitsParseAux_digits (l : List Char) :
    ∀ acc : Nat, (∀ c ∈ l, isDig c = true) →
      digitsParseAux acc l = some (l.foldl (fun a c => 10 * a + (c.toNat - 48)) acc) := by
  induction l with
  | nil => intro acc _; rfl
  | cons c t ih =>
    intro acc h
    have hc := h c (List.mem_cons_self c t)
    rw [digitsParseAux_cons acc c t hc, List.foldl_cons]
    exact ih _ (fun x hx => h x (List.mem_cons_of_mem c hx))

theorem digitsParse_digits (l : List Char) (hne : l ≠ [])
    (h : ∀ c ∈ l, isDig c = true) : digitsParse l = some (digitsVal l) := by
  cases l with
  | nil => exact absurd rfl hne
  | cons c t =>
    have hc := h c (List.mem_cons_self c t)
    simp only [digitsParse, hc, if_true]
    rw [digitsParseAux_digits t _ (fun x hx => h x (List.mem_cons_of_mem c hx))]
    simp [digitsVal]

theorem isDig_not_space (c : Char) (h : isDig c = true) :
    pyIsSpace c = false := by
  simp only [isDig, Bool.and_eq_true, decide_eq_true_eq] at h
  simp only [pyIsSpace, Bool.or_eq_false_iff, decide_eq_false_iff_not]
  omega

theorem isDig_ne (c d : Char) (h : isDig c = true) (hd : isDig d = false) :
    c ≠ d := by
  intro he
  rw [he, hd] at h
  cases h

theorem pyIntStr?_digits (a : List Char) (hne : a ≠ [])
    (h : ∀ c ∈ a, isDig c = true) :
    pyIntStr? a = some ((digitsVal a : Nat) : Int) := by
  have hds : a.dropWhile pyIsSpace = a :=
    dropWhile_eq_self_of _ _ (fun c hc => isDig_not_space c (h c hc))
  have hds2 : a.reverse.dropWhile pyIsSpace = a.reverse :=
    dropWhile_eq_self_of _ _
      (fun c hc => isDig_not_space c (h c (List.mem_reverse.mp hc)))
  unfold pyIntStr?
  rw [hds, hds2, List.reverse_reverse]
  cases a with
  | nil => exact absurd rfl hne
  | cons c t =>
    have hc := h c (List.mem_cons_self c t)
    have hp : c ≠ '+' := isDig_ne c '+' hc (by decide)
    have hm : c ≠ '-' := isDig_ne c '-' hc (by decide)
    simp only [hp, hm, if_false]
    rw [digitsParse_digits (c :: t) (by simp) h]
    rfl

theorem not_mem_of_all_digits (d : Char) (hd : isDig d = false)
    (a : List Char) (h : ∀ c ∈ a, isDig c = true) : d ∉ a := by
  intro hm
  rw [h d hm] at hd
  cases hd

theorem mem_joinComma (c : Char) :
    ∀ parts : List (List Char), c ∈ joinComma parts →
      (∃ p ∈ parts, c ∈ p) ∨ c = ',' := by
  intro parts
  induction parts with
  | nil => intro h; cases h
  | cons p ps ih =>
    intro h
    cases ps with
    | nil =>
      exact Or.inl ⟨p, List.mem_cons_self p [], by simpa [joinComma] using h⟩
    | cons q qs =>
      simp only [joinComma, List.mem_append, List.mem_cons] at h
      rcases h with h | h | h
      · exact Or.inl ⟨p, List.mem_cons_self p _, h⟩
      · exact Or.inr h
      · rcases ih h with ⟨r, hr, hcr⟩ | h
        · exact Or.inl ⟨r, List.mem_cons_of_mem p hr, hcr⟩
        · exact Or.inr h

theorem charSplit_joinComma :
    ∀ parts : List (List Char), parts ≠ [] → (∀ p ∈ parts, ',' ∉ p) →
      charSplit ',' (joinComma parts) = parts := by
  intro parts
  induction parts with
  | nil => intro h; exact absurd rfl h
  | cons p ps ih =>
    intro _ h
    cases ps with
    | nil => exact charSplit_of_not_mem ',' p (h p (List.mem_cons_self p []))
    | cons q qs =>
      have : joinComma (p :: q :: qs) = p ++ ',' :: joinComma (q :: qs) := rfl
      rw [this, charSplit_append ',' p _ (h p (List.mem_cons_self p _)),
        ih (by simp) (fun r hr => h r (List.mem_cons_of_mem p hr))]

theorem mapM_pyIntStr?_digits :
    ∀ parts : List (List Char),
      (∀ p ∈ parts, p ≠ [] ∧ ∀ c ∈ p, isDig c = true) →
      parts.mapM pyIntStr? =
        some (parts.map (fun p => ((digitsVal p : Nat) : Int))) := by
  intro parts
  induction parts with
  | nil => intro _; rfl
  | cons p ps ih =>
    intro h
    have hp := h p (List.mem_cons_self p ps)
    rw [List.mapM_cons, pyIntStr?_digits p hp.1 hp.2,
      ih (fun r hr => h r (List.mem_cons_of_mem p hr))]
    rfl

theorem check_week_range_some (s : String) (w : Int) :
    check_week_range (some s) w =
      if s.data = [] then true
      else if s.data.contains '-' then dashBranch s.data w
      else if s.data.contains ',' then commaBranch s.data w
      else singleBranch s.data w := rfl

theorem check_week_range_mk (l : List Char) (w : Int) :
    check_week_range (some (String.mk l)) w =
      if l = [] then true
      else if l.contains '-' then dashBranch l w
      else if l.contains ',' then commaBranch l w
      else singleBranch l w := rfl

theorem dashBranch_digits (a b : List Char) (W : Int) (ha : a ≠ [])
    (hb : b ≠ []) (hda : ∀ c ∈ a, isDig c = true)
    (hdb : ∀ c ∈ b, isDig c = true) :
    dashBranch (a ++ '-' :: b) W =
      decide (((digitsVal a : Nat) : Int) ≤ W ∧
        W ≤ ((digitsVal b : Nat) : Int)) := by
  have hna : '-' ∉ a := not_mem_of_all_digits '-' (by decide) a hda
  have hnb : '-' ∉ b := not_mem_of_all_digits '-' (by decide) b hdb
  unfold dashBranch
  rw [charSplit_append '-' a _ hna, charSplit_of_not_mem '-' b hnb]
  simp only [pyIntStr?_digits a ha hda, pyIntStr?_digits b hb hdb]

theorem dashBranch_none (cs : List Char) (W : Int) (h : twoIntsOf cs = none) :
    dashBranch cs W = false := by
  unfold twoIntsOf at h
  unfold dashBranch
  rcases hsp : charSplit '-' cs with _ | ⟨x, _ | ⟨y, _ | ⟨z, t⟩⟩⟩ <;>
    simp only [hsp] at h ⊢ <;> try rfl
  rcases hx : pyIntStr? x with _ | nx <;> rcases hy : pyIntStr? y with _ | ny <;>
    simp only [hx, hy] at h ⊢ <;> try rfl
  exact Option.noConfusion h

theorem commaBranch_digits (parts : List (List Char)) (W : Int)
    (hne : parts ≠ [])
    (hd : ∀ p ∈ parts, p ≠ [] ∧ ∀ c ∈ p, isDig c = true) :
    commaBranch (joinComma parts) W =
      decide (W ∈ parts.map (fun p => ((digitsVal p : Nat) : Int))) := by
  unfold commaBranch
  rw [charSplit_joinComma parts hne
      (fun r hr => not_mem_of_all_digits ',' (by decide) r (hd r hr).2),
    mapM_pyIntStr?_digits parts hd]

theorem commaBranch_none (cs : List Char) (W : Int)
    (h : (charSplit ',' cs).mapM pyIntStr? = none) :
    commaBranch cs W = false := by
  unfold commaBranch
  rw [h]
theorem singleBranch_iff (cs : List Char) (W : Int) :
    singleBranch cs W = true ↔ pyIntStr? cs = some W := by
  unfold singleBranch
  rcases hx : pyIntStr? cs with _ | n
  · simp
  · simp [eq_comm]

/-- C5: for every week `W` and interval expression `"A-B"` built from two
(nonnegative) integer literals, the matcher returns true exactly when
`A ≤ W ≤ B` — hence an inverted interval (`A > B`) matches no week — and
whenever the text around the `-` does not split into exactly two Python
integers the matcher returns false.  (A negative lower bound cannot be
written: its sign character is itself split on, landing in the
parse-failure clause.) -/
theorem c5_interval_semantics (W : Int) :
    (∀ a b : List Char, a ≠ [] → b ≠ [] →
      (∀ c ∈ a, isDig c = true) → (∀ c ∈ b, isDig c = true) →
      (check_week_range (some (String.mk (a ++ '-' :: b))) W = true ↔
        ((digitsVal a : Nat) : Int) ≤ W ∧ W ≤ ((digitsVal b : Nat) : Int)))
    ∧ (∀ s : String, s.data.contains '-' = true → twoIntsOf s.data = none →
        check_week_range (some s) W = false) := by
  constructor
  · intro a b ha hb hda hdb
    have hne : a ++ '-' :: b ≠ [] := by simp
    have hcont : (a ++ '-' :: b).contains '-' = true := by
      simp [List.elem_iff]
    rw [check_week_range_mk, if_neg hne, if_pos hcont,
      dashBranch_digits a b W ha hb hda hdb]
    exact decide_eq_true_iff
  · intro s hcont ht
    have hne : s.data ≠ [] := by
      intro h
      rw [h] at hcont
      cases hcont
    rw [check_week_range_some, if_neg hne, if_pos hcont]
    exact dashBranch_none s.data W ht

/-- Concrete instances of C5, obtained by applying
`c5_interval_semantics` itself. -/
theorem c5_interval_semantics_witness :
    check_week_range (some "1-16") 5 = true ∧
    check_week_range (some "10-2") 5 = false ∧
    check_week_range (some "1-x") 5 = false := by
  have h1 := (c5_interval_semantics 5).1 ['1'] ['1', '6'] (by decide)
    (by decide) (by decide) (by decide)
  have h2 := (c5_interval_semantics 5).1 ['1', '0'] ['2'] (by decide)
    (by decide) (by decide) (by decide)
  have h3 := (c5_interval_semantics 5).2 "1-x" (by decide) (by decide)
  refine ⟨h1.mpr (by decide), ?_, h3⟩
  show check_week_range (some (String.mk (['1', '0'] ++ '-' :: ['2']))) 5 = false
  cases hb : check_week_range (some (String.mk (['1', '0'] ++ '-' :: ['2']))) 5
  · rfl
  · exact absurd (h2.mp hb) (by decide)

/-- C6: the empty/missing expression matches every week; a comma list of
integer literals matches exactly the listed weeks, and any parse failure
in the list yields false; any other expression matches exactly the week
equal to its value as a single Python integer (so parse failure means
false). -/
theorem c6_list_single_semantics (W : Int) :
    (check_week_range none W = true ∧ check_week_range (some "") W = true)
    ∧ (∀ parts : List (List Char), 2 ≤ parts.length →
        (∀ p ∈ parts, p ≠ [] ∧ ∀ c ∈ p, isDig c = true) →
        (check_week_range (some (String.mk (joinComma parts))) W = true ↔
          W ∈ parts.map (fun p => ((digitsVal p : Nat) : Int))))
    ∧ (∀ s : String, s.data ≠ [] → s.data.contains '-' = false →
        s.data.contains ',' = true →
        (charSplit ',' s.data).mapM pyIntStr? = none →
        check_week_range (some s) W = false)
    ∧ (∀ s : String, s.data ≠ [] → s.data.contains '-' = false →
        s.data.contains ',' = false →
        (check_week_range (some s) W = true ↔ pyIntStr? s.data = some W)) := by
  refine ⟨⟨rfl, rfl⟩, ?_, ?_, ?_⟩
  · intro parts hlen hd
    rcases parts with _ | ⟨p, _ | ⟨q, qs⟩⟩
    · simp at hlen
    · simp at hlen
    have hjc : joinComma (p :: q :: qs) = p ++ ',' :: joinComma (q :: qs) := rfl
    have hne : joinComma (p :: q :: qs) ≠ [] := by
      rw [hjc]; simp
    have hmem : '-' ∉ joinComma (p :: q :: qs) := by
      intro hm
      rcases mem_joinComma '-' _ hm with ⟨r, hr, hcr⟩ | h
      · exact not_mem_of_all_digits '-' (by decide) r (hd r hr).2 hcr
      · cases h
    have hnd : (joinComma (p :: q :: qs)).contains '-' = false := by
      simp [List.elem_iff, hmem]
    have hcc : (joinComma (p :: q :: qs)).contains ',' = true := by
      rw [hjc]
      simp [List.elem_iff]
    rw [check_week_range_mk, if_neg hne]
    rw [hnd, if_neg Bool.false_ne_true, if_pos hcc,
      commaBranch_digits _ W (by simp) hd]
    exact decide_eq_true_iff
  · intro s hne hnd hcc hfail
    rw [check_week_range_some, if_neg hne]
    rw [hnd, if_neg Bool.false_ne_true, if_pos hcc]
    exact commaBranch_none s.data W hfail
  · intro s hne hnd hnc
    rw [check_week_range_some, if_neg hne]
    rw [hnd, if_neg Bool.false_ne_true, hnc, if_neg Bool.false_ne_true]
    exact singleBranch_iff s.data W

/-- Concrete instances of C6, obtained by applying
`c6_list_single_semantics` itself. -/
theorem c6_list_single_semantics_witness :
    check_week_range (some "3,5,7") 5 = true ∧
    check_week_range (some "3,x") 3 = false ∧
    check_week_range (some "8") 8 = true := by
  have h1 := (c6_list_single_semantics 5).2.1 [['3'], ['5'], ['7']]
    (by decide) (by decide)
  have h2 := (c6_list_single_semantics 3).2.2.1 "3,x" (by decide) (by decide)
    (by decide) (by decide)
  have h3 := (c6_list_single_semantics 8).2.2.2 "8" (by decide) (by decide)
    (by decide)
  exact ⟨h1.mpr (by decide), h2, h3.mpr (by decide)⟩

theorem mapIntE_eq (xs : List (List Char)) :
    mapIntE xs =
      match xs.mapM pyIntStr? with
      | some l => .ok l
      | none => .error "ValueError: invalid literal for int() with base 10" := by
  induction xs with
  | nil => rfl
  | cons x t ih =>
    unfold mapIntE
    rw [ih, List.mapM_cons]
    rcases hx : pyIntStr? x with _ | n <;>
      rcases ht : t.mapM pyIntStr? with _ | l <;>
      simp only [pyIntE, hx, ht] <;> rfl

theorem except_bind_ok {α β : Type} (a : α) (f : α → Except String β) :
    (Except.ok a : Except String α) >>= f = f a := rfl

theorem except_bind_error {α β : Type} (e : String)
    (f : α → Except String β) :
    (Except.error e : Except String α) >>= f = Except.error e := rfl

theorem dash_exc_agree (cs : List Char) (w : Int) :
    tryElseFalse (dashBranchE cs w) = .ok (dashBranch cs w) := by
  unfold dashBranchE dashBranch
  rcases hsp : charSplit '-' cs with _ | ⟨x, _ | ⟨y, _ | ⟨z, t⟩⟩⟩ <;>
    simp only [hsp, unpack2E, except_bind_ok, except_bind_error] <;> try rfl
  rcases hx : pyIntStr? x with _ | nx <;> rcases hy : pyIntStr? y with _ | ny <;>
    simp only [pyIntE, hx, hy, except_bind_ok, except_bind_error] <;> rfl

theorem comma_exc_agree (cs : List Char) (w : Int) :
    tryElseFalse (commaBranchE cs w) = .ok (commaBranch cs w) := by
  unfold commaBranchE commaBranch
  rw [mapIntE_eq]
  rcases hm : (charSplit ',' cs).mapM pyIntStr? with _ | l <;>
    simp only [hm] <;> rfl

theorem single_exc_agree (cs : List Char) (w : Int) :
    tryElseFalse (singleBranchE cs w) = .ok (singleBranch cs w) := by
  unfold singleBranchE singleBranch
  rcases hx : pyIntStr? cs with _ | n <;> simp only [pyIntE, hx] <;> rfl

/-- C10: the matcher is total at its public interface — for every input
expression (any string, empty, or missing/NaN) and every week, the
exception-transparent version returns `.ok` of the `Bool` result: every
raising operation inside the branches is absorbed by its `try/except`
into a plain `false`, and no exception escapes. -/
theorem c10_matcher_total (week_str : Option String) (W : Int) :
    check_week_range_exc week_str W = .ok (check_week_range week_str W) := by
  cases week_str with
  | none => rfl
  | some s =>
    rw [show check_week_range_exc (some s) W =
        (if s.data = [] then .ok true
         else if s.data.contains '-' then tryElseFalse (dashBranchE s.data W)
         else if s.data.contains ',' then tryElseFalse (commaBranchE s.data W)
         else tryElseFalse (singleBranchE s.data W)) from rfl,
      check_week_range_some]
    by_cases h1 : s.data = []
    · rw [if_pos h1, if_pos h1]
    · rw [if_neg h1, if_neg h1]
      by_cases h2 : s.data.contains '-' = true
      · rw [if_pos h2, if_pos h2]
        exact dash_exc_agree s.data W
      · rw [if_neg h2, if_neg h2]
        by_cases h3 : s.data.contains ',' = true
        · rw [if_pos h3, if_pos h3]
          exact comma_exc_agree s.data W
        · rw [if_neg h3, if_neg h3]
          exact single_exc_agree s.data W

/-! ### Claim C7: the week number -/

theorem ediv_ediv_nonneg (a : Int) (h : 0 ≤ a) :
    a / 86400 / 7 = a / 604800 := by
  obtain ⟨n, rfl⟩ := Int.eq_ofNat_of_zero_le h
  rw [show ((n : Int)) / 86400 = ((n / 86400 : Nat) : Int) from rfl,
    show (((n / 86400 : Nat) : Int)) / 7 = ((n / 86400 / 7 : Nat) : Int) from rfl,
    show ((n : Int)) / 604800 = ((n / 604800 : Nat) : Int) from rfl,
    Nat.div_div_eq_div_mul]

/-- C7: for a well-formed semester-start date (day number `d`) the week
number is 0 strictly before the start, `floor(elapsed days / 7) + 1`
afterwards (equivalently elapsed seconds divided by one week, floored),
and in particular 1 throughout the first seven days. -/
theorem c7_week_number (s : String) (d : Int) (now : Int)
    (h : parseDateYMD s = some d) :
    (now < d * 86400 → get_week_num s now = 0) ∧
    (d * 86400 ≤ now →
      get_week_num s now = (now - d * 86400) / 604800 + 1) ∧
    (d * 86400 ≤ now → now < d * 86400 + 604800 → get_week_num s now = 1) := by
  have hbody : get_week_num s now =
      if now < d * 86400 then 0
      else ((now - d * 86400).fdiv 86400).fdiv 7 + 1 := by
    unfold get_week_num
    rw [h]
  have hmain : d * 86400 ≤ now →
      get_week_num s now = (now - d * 86400) / 604800 + 1 := by
    intro hge
    rw [hbody, if_neg (not_lt.mpr hge),
      Int.fdiv_eq_ediv _ (by omega : (0:Int) ≤ 86400),
      Int.fdiv_eq_ediv _ (by omega : (0:Int) ≤ 7),
      ediv_ediv_nonneg _ (by omega)]
  refine ⟨fun hlt => by rw [hbody, if_pos hlt], hmain, fun hge hub => ?_⟩
  rw [hmain hge]
  have : (now - d * 86400) / 604800 = 0 := by omega
  omega

/-- Concrete instance of C7 at `semester_start = "2025-09-01"` (epoch day
20332), obtained by applying `c7_week_number` itself: one second before
midnight gives week 0, the sixth day gives week 1, the eighth gives
week 2. -/
theorem c7_week_number_witness :
    get_week_num "2025-09-01" (20332 * 86400 - 1) = 0 ∧
    get_week_num "2025-09-01" (20332 * 86400 + 6 * 86400) = 1 ∧
    get_week_num "2025-09-01" (20332 * 86400 + 7 * 86400) = 2 := by
  have h0 := (c7_week_number "2025-09-01" 20332 (20332 * 86400 - 1)
    (by decide)).1 (by omega)
  have h1 := (c7_week_number "2025-09-01" 20332 (20332 * 86400 + 6 * 86400)
    (by decide)).2.2 (by omega) (by omega)
  have h2 := (c7_week_number "2025-09-01" 20332 (20332 * 86400 + 7 * 86400)
    (by decide)).2.1 (by omega)
  refine ⟨h0, h1, ?_⟩
  rw [h2]
  decide

/-! ### Claim C2: the reminder scan -/

theorem findUpcoming_eq_find? (rows : List CourseRow) (now m : Int) :
    findUpcoming rows now m = rows.find? (inWindow now m) := by
  induction rows with
  | nil => rfl
  | cons r t ih =>
    cases h : inWindow now m r <;>
      simp [findUpcoming, List.find?_cons, h, ih]

/-- C2: over any today-frame (in its given order), `check_remind`'s scan
returns the first row whose parsed start time, combined with today's
date, lies in `[now, now + remind_minutes]`; it returns nothing on an
empty frame and exactly when no row's start lies in the window; and
`check_remind` stores precisely this scan's result. -/
theorem c2_reminder_first_in_window (rows : List CourseRow) (now m : Int) :
    findUpcoming rows now m = rows.find? (inWindow now m)
    ∧ (findUpcoming rows now m = none ↔ ∀ r ∈ rows, inWindow now m r = false)
    ∧ findUpcoming [] now m = none
    ∧ (∀ st : SessionState, (check_remind st now).current_remind =
        findUpcoming (get_today_courses st now) now st.remind_minutes) := by
  refine ⟨findUpcoming_eq_find? rows now m, ?_, rfl, fun st => rfl⟩
  rw [findUpcoming_eq_find?]
  simp [List.find?_eq_none]

/-! ### Claim C9: no mutation of schedule or adjustments -/

/-- C9: recomputing the effective schedule and the reminder writes only
`current_remind`: the canonical schedule, the adjustment list, the
semester-start string and the lookahead setting are identical before and
after, and the computation is idempotent (it reads nothing it wrote).
The pandas `.copy()` at app.py line 85 is what licenses this pure
embedding: the `.loc` writes of the merge hit the copied frame only. -/
theorem c9_no_mutation (st : SessionState) (now : Int) :
    (check_remind st now).course_data = st.course_data
    ∧ (check_remind st now).adjust_courses = st.adjust_courses
    ∧ (check_remind st now).semester_start = st.semester_start
    ∧ (check_remind st now).remind_minutes = st.remind_minutes
    ∧ check_remind (check_remind st now) now = check_remind st now :=
  ⟨rfl, rfl, rfl, rfl, rfl⟩

/-! ### Claim C8: adjustment deletion -/

/-- C8 counterexample: with a single stored adjustment, deleting at the
out-of-bounds index 5 raises `IndexError` (surfaced as a page error by
the framework) — it is not a silent no-op, contrary to the claim. -/
theorem c8_out_of_bounds_raises_cex :
    removeAdjustHandler stOneAdj 5 =
      .error "IndexError: pop index out of range" ∧
    stOneAdj.adjust_courses = [adjMath] := by
  constructor <;> rfl

/-- C8 (amended): the delete handler removes exactly the adjustment at an
in-bounds position; an out-of-bounds index (at or past the length, or
below `-length`) makes `list.pop` raise `IndexError` rather than
silently doing nothing.  (The page's delete loop only ever passes
enumeration indices `0 ≤ i < length`, so the error cannot occur from the
UI.) -/
theorem c8_remove_adjustment (st : SessionState) (i : Int) :
    (0 ≤ i → i < st.adjust_courses.length →
      removeAdjustHandler st i =
        .ok { st with adjust_courses := st.adjust_courses.eraseIdx i.toNat })
    ∧ ((st.adjust_courses.length : Int) ≤ i →
      removeAdjustHandler st i = .error "IndexError: pop index out of range")
    ∧ (i < -(st.adjust_courses.length : Int) →
      removeAdjustHandler st i = .error "IndexError: pop index out of range") := by
  refine ⟨fun h0 hlt => ?_, fun hge => ?_, fun hneg => ?_⟩
  · have hj : pyIndexNorm i st.adjust_courses.length = i := by
      unfold pyIndexNorm
      rw [if_neg (not_lt.mpr h0)]
    unfold removeAdjustHandler pyPop
    simp only [hj]
    rw [dif_pos ⟨h0, hlt⟩]
  · have h0 : 0 ≤ i := le_trans (by omega) hge
    have hj : pyIndexNorm i st.adjust_courses.length = i := by
      unfold pyIndexNorm
      rw [if_neg (not_lt.mpr h0)]
    unfold removeAdjustHandler pyPop
    simp only [hj]
    rw [dif_neg (by omega)]
  · have hi0 : i < 0 := by omega
    have hj : pyIndexNorm i st.adjust_courses.length =
        i + st.adjust_courses.length := by
      unfold pyIndexNorm
      rw [if_pos hi0]
    unfold removeAdjustHandler pyPop
    simp only [hj]
    rw [dif_neg (by omega)]

/-- Concrete instances of the amended C8, obtained by applying
`c8_remove_adjustment` itself: in-bounds deletion removes exactly that
entry, out-of-bounds deletion raises. -/
theorem c8_remove_adjustment_witness :
    removeAdjustHandler stOneAdj 0 =
      .ok { stOneAdj with adjust_courses := [] } ∧
    removeAdjustHandler stOneAdj 3 =
      .error "IndexError: pop index out of range" := by
  have h1 := (c8_remove_adjustment stOneAdj 0).1 (by decide) (by decide)
  have h2 := (c8_remove_adjustment stOneAdj 3).2.1 (by decide)
  exact ⟨h1, h2⟩

/-! ### Claim C1: replace-or-append merge -/

theorem forall2_map_self {α : Type} (P : α → α → Prop) (l : List α)
    (f : α → α) (h : ∀ x ∈ l, P x (f x)) : List.Forall₂ P l (l.map f) := by
  induction l with
  | nil => exact List.Forall₂.nil
  | cons x t ih =>
    exact List.Forall₂.cons (h x (List.mem_cons_self x t))
      (ih (fun y hy => h y (List.mem_cons_of_mem x hy)))

theorem rowMatches_iff (a : Adjust) (r : CourseRow) :
    rowMatches a r = true ↔ r.start = a.origStart ∧ r.name = a.origName := by
  simp [rowMatches]

theorem any_rowMatches_iff (a : Adjust) (rows : List CourseRow) :
    rows.any (rowMatches a) = true ↔
      ∃ r ∈ rows, r.start = a.origStart ∧ r.name = a.origName := by
  rw [List.any_eq_true]
  constructor
  · rintro ⟨r, hr, hm⟩
    exact ⟨r, hr, (rowMatches_iff a r).mp hm⟩
  · rintro ⟨r, hr, hm⟩
    exact ⟨r, hr, (rowMatches_iff a r).mpr hm⟩

/-- C1: merging an adjustment whose weekday and week range match is
replace-or-append.  If some row of the working frame has the
adjustment's original (start, name) key, every such row gets the five
new fields in place (weekday/week range untouched) and no other row
changes; otherwise the frame is the original with the synthetic row
appended.  In `get_today_courses` the result of the merge (with the
appended row, if any) is what the start-time sort is applied to. -/
theorem c1_adjust_replace_or_append (rows : List CourseRow) (a : Adjust) :
    ((∃ r ∈ rows, r.start = a.origStart ∧ r.name = a.origName) →
      List.Forall₂ (replacedSpec a) rows (applyAdjust rows a))
    ∧ ((∀ r ∈ rows, ¬(r.start = a.origStart ∧ r.name = a.origName)) →
        applyAdjust rows a = rows ++ [syntheticRow a])
    ∧ (∀ (st : SessionState) (now : Int), st.course_data ≠ none →
        st.adjust_courses = [a] →
        a.weekday = todayWeekday now →
        check_week_range (some a.weekRange)
          (get_week_num st.semester_start now) = true →
        get_today_courses st now =
          sortRowsByStart (applyAdjust (todaySelected st now) a)) := by
  refine ⟨fun hex => ?_, fun hall => ?_, fun st now hcd hadj hwk hcw => ?_⟩
  · unfold applyAdjust
    rw [if_pos ((any_rowMatches_iff a rows).mpr hex)]
    refine forall2_map_self (replacedSpec a) rows _ (fun r hr => ?_)
    unfold replacedSpec
    by_cases hm : r.start = a.origStart ∧ r.name = a.origName
    · rw [if_pos hm, if_pos ((rowMatches_iff a r).mpr hm)]
      exact ⟨rfl, rfl, rfl, rfl, rfl, rfl, rfl⟩
    · rw [if_neg hm,
        if_neg (fun hb => hm ((rowMatches_iff a r).mp hb))]
  · unfold applyAdjust
    rw [if_neg (fun hb => ?_)]
    obtain ⟨r, hr, hm⟩ := (any_rowMatches_iff a rows).mp hb
    exact hall r hr hm
  · obtain ⟨rows0, hcd'⟩ := Option.ne_none_iff_exists'.mp hcd
    unfold get_today_courses todayMerged
    simp only [hcd', hadj, List.foldl_cons, List.foldl_nil]
    rw [hwk]
    simp [hcw]

/-- Concrete instances of C1, obtained by applying
`c1_adjust_replace_or_append` itself: a masked frame is replaced
elementwise, an unmasked frame gets the synthetic row appended, and the
merge result is what gets sorted (instant 1756944000 = 2025-09-04, a
Thursday in week 1). -/
theorem c1_adjust_replace_or_append_witness :
    List.Forall₂ (replacedSpec adjMath)
      [mkRow 4 "08:00" "08:45" "Math"]
      (applyAdjust [mkRow 4 "08:00" "08:45" "Math"] adjMath)
    ∧ applyAdjust [mkRow 4 "09:00" "09:45" "Chem"] adjMath =
        [mkRow 4 "09:00" "09:45" "Chem"] ++ [syntheticRow adjMath]
    ∧ get_today_courses stOneAdj (20335 * 86400) =
        sortRowsByStart
          (applyAdjust (todaySelected stOneAdj (20335 * 86400)) adjMath) := by
  have h1 := c1_adjust_replace_or_append [mkRow 4 "08:00" "08:45" "Math"] adjMath
  have h2 := c1_adjust_replace_or_append [mkRow 4 "09:00" "09:45" "Chem"] adjMath
  exact ⟨h1.1 (by decide), h2.2.1 (by decide),
    h2.2.2 stOneAdj (20335 * 86400) (by decide) rfl (by decide) (by decide)⟩

/-! ### Claim C4: ordering and (in)stability of the start-time sort -/

theorem insR_perm {α : Type} (key : α → Nat) (x : α) (l : List α) :
    List.Perm (insR key x l) (x :: l) := by
  induction l with
  | nil => exact List.Perm.refl _
  | cons y ys ih =>
    unfold insR
    by_cases h : key x < key y
    · rw [if_pos h]
    · rw [if_neg h]
      exact List.Perm.trans (List.Perm.cons y ih) (List.Perm.swap x y ys)

theorem insR_sorted {α : Type} (key : α → Nat) (x : α) :
    ∀ l : List α, l.Pairwise (fun u v => key u ≤ key v) →
      (insR key x l).Pairwise (fun u v => key u ≤ key v) := by
  intro l
  induction l with
  | nil =>
    intro _
    simp [insR]
  | cons y ys ih =>
    intro h
    rcases List.pairwise_cons.mp h with ⟨hy, hys⟩
    unfold insR
    by_cases hlt : key x < key y
    · rw [if_pos hlt]
      refine List.pairwise_cons.mpr ⟨?_, h⟩
      intro b hb
      rcases List.mem_cons.mp hb with rfl | hb
      · omega
      · exact le_trans (le_of_lt hlt) (hy b hb)
    · rw [if_neg hlt]
      refine List.pairwise_cons.mpr ⟨?_, ih hys⟩
      intro b hb
      have hb' := (insR_perm key x ys).mem_iff.mp hb
      rcases List.mem_cons.mp hb' with rfl | hb'
      · omega
      · exact hy b hb'

theorem insR_filter {α : Type} (key : α → Nat) (x : α) (k : Nat) :
    ∀ l : List α, l.Pairwise (fun u v => key u ≤ key v) →
      (insR key x l).filter (fun r => key r == k) =
        if key x == k then l.filter (fun r => key r == k) ++ [x]
        else l.filter (fun r => key r == k) := by
  intro l
  induction l with
  | nil =>
    intro _
    by_cases h : key x == k <;> simp [insR, h]
  | cons y ys ih =>
    intro hp
    rcases List.pairwise_cons.mp hp with ⟨hy, hys⟩
    unfold insR
    by_cases hlt : key x < key y
    · rw [if_pos hlt]
      by_cases hxk : key x == k
      · have hk : key x = k := by simpa using hxk
        have hfe : (y :: ys).filter (fun r => key r == k) = [] := by
          rw [List.filter_eq_nil_iff]
          intro b hb
          rcases List.mem_cons.mp hb with rfl | hb
          · simp only [beq_iff_eq]
            omega
          · have := hy b hb
            simp only [beq_iff_eq]
            omega
        rw [if_pos hxk, List.filter_cons_of_pos (by simpa using hxk), hfe]
        rfl
      · rw [if_neg hxk, List.filter_cons_of_neg (by simpa using hxk)]
    · rw [if_neg hlt, List.filter_cons, List.filter_cons, ih hys]
      by_cases hyk : key y == k <;> by_cases hxk : key x == k <;>
        simp [hyk, hxk]

theorem insSort_fold_spec {α : Type} (key : α → Nat) (k : Nat) :
    ∀ l acc : List α, acc.Pairwise (fun u v => key u ≤ key v) →
      (l.foldl (fun acc x => insR key x acc) acc).Pairwise
          (fun u v => key u ≤ key v)
      ∧ List.Perm (l.foldl (fun acc x => insR key x acc) acc) (acc ++ l)
      ∧ (l.foldl (fun acc x => insR key x acc) acc).filter
            (fun r => key r == k) =
          acc.filter (fun r => key r == k) ++ l.filter (fun r => key r == k) := by
  intro l
  induction l with
  | nil =>
    intro acc h
    exact ⟨h, by simp, by simp⟩
  | cons x xs ih =>
    intro acc h
    obtain ⟨s1, s2, s3⟩ := ih (insR key x acc) (insR_sorted key x acc h)
    rw [List.foldl_cons]
    refine ⟨s1, ?_, ?_⟩
    · refine List.Perm.trans s2 ?_
      refine List.Perm.trans (List.Perm.append_right xs (insR_perm key x acc)) ?_
      exact List.perm_middle.symm
    · rw [s3, insR_filter key x k acc h, List.filter_cons]
      by_cases hxk : key x == k <;> simp [hxk]

theorem insSortL_spec {α : Type} (key : α → Nat) (l : List α) :
    (insSortL key l).Pairwise (fun u v => key u ≤ key v)
    ∧ List.Perm (insSortL key l) l
    ∧ ∀ k : Nat, (insSortL key l).filter (fun r => key r == k) =
        l.filter (fun r => key r == k) := by
  have h := fun k => insSort_fold_spec key k l [] (by simp)
  refine ⟨(h 0).1, ?_, fun k => by simpa using (h k).2.2⟩
  have := (h 0).2.1
  simpa using this

theorem npArgsortModel_small {α : Type} [Inhabited α] (key : α → Nat)
    (l : List α) (h : l.length ≤ 16) :
    npArgsortModel key l = insSortL key l := by
  unfold npArgsortModel
  simp [npSortSeg, h]

/-- C4 counterexample: with seventeen rows that all share the start time
08:00, the frame returned by `get_today_courses` does NOT preserve the
original relative order of equal-start rows — numpy's default quicksort
partitions runs longer than 16 elements and scrambles ties (the rows
come back as C01, C15, C14, …), so the claimed conjunction
"sorted ∧ ties keep insertion order" fails at this input. -/
theorem c4_stability_cex :
    ¬ ((get_today_courses st17 0).Pairwise
        (fun r r' => rowKey r ≤ rowKey r')
      ∧ ∀ k : Nat,
          (get_today_courses st17 0).filter (fun r => rowKey r == k) =
            (todayMerged st17 0).filter (fun r => rowKey r == k)) :=
  fun h => absurd (h.2 28800) (by decide)

/-! ### Claim C3: the import block -/

/-- C3 (documenting a code bug): whenever the uploaded sheet has all
seven required columns, the weekday filter line raises and the
whole import is rejected with the schedule left untouched.  Python parses
`df["星期"] >= 1 & df["星期"] <= 7` as the chained comparison
`df["星期"] >= (1 & df["星期"]) <= 7` because `&` binds tighter than the
comparisons; the chain's implicit `and` truth-tests a pandas Series,
which always raises `ValueError`; the surrounding `except` reports
failure.  The intended per-row weekday filtering (see the inline comment
过滤无效星期) never happens. -/
theorem c3_import_always_fails (current : Option (List CourseRow))
    (t : UploadTable)
    (h : requiredCols.all (fun c => t.cols.contains c) = true) :
    importBlock current t =
      (current,
        "导入失败：ValueError: The truth value of a Series is ambiguous.") := by
  unfold importBlock
  rw [if_pos h]
  rfl

/-- The failing input made concrete, obtained by applying
`c3_import_always_fails` itself: a perfectly valid two-row sheet with
all required columns is rejected and `course_data` keeps its previous
value. -/
theorem c3_import_always_fails_witness :
    importBlock (some rows17) tableTwoRows =
      (some rows17,
        "导入失败：ValueError: The truth value of a Series is ambiguous.") :=
  c3_import_always_fails (some rows17) tableTwoRows (by decide)

/-! ### Verification of the introsort port, part 1: list surgery.

These lemmas describe `List.set`-based swapping as used by the partition
and heapsort phases: effect on `getD`, preservation of length, and
permutation facts. -/

theorem getD_set_self {α : Type} (l : List α) (i : Nat) (a d : α)
    (h : i < l.length) : (l.set i a).getD i d = a := by
  simp [List.getD, List.getElem?_set_eq h]

theorem getD_set_ne {α : Type} (l : List α) (i j : Nat) (a d : α)
    (h : i ≠ j) : (l.set i a).getD j d = l.getD j d := by
  simp [List.getD, List.getElem?_set_ne h]

theorem getD_eq_get {α : Type} (l : List α) (i : Nat) (d : α)
    (h : i < l.length) : l.getD i d = l.get ⟨i, h⟩ := by
  simp [List.getD, List.getElem?_eq_getElem h]

theorem set_getD_self {α : Type} : ∀ (l : List α) (i : Nat) (d : α),
    i < l.length → l.set i (l.getD i d) = l := by
  intro l
  induction l with
  | nil => intro i d h; cases h
  | cons x t ih =>
    intro i d h
    cases i with
    | zero => rfl
    | succ n =>
      simp only [List.getD_cons_succ, List.set_cons_succ, List.cons.injEq,
        true_and]
      exact ih n d (by simpa using h)

theorem get_cons_set_perm {α : Type} : ∀ (l : List α) (i : Nat)
    (h : i < l.length) (a : α),
    List.Perm (l.get ⟨i, h⟩ :: l.set i a) (a :: l) := by
  intro l
  induction l with
  | nil => intro i h; cases h
  | cons x t ih =>
    intro i h a
    cases i with
    | zero => exact List.Perm.swap a x t
    | succ n =>
      have hn : n < t.length := by simpa using h
      show List.Perm (t.get ⟨n, hn⟩ :: x :: t.set n a) (a :: x :: t)
      exact ((List.Perm.swap x (t.get ⟨n, hn⟩) (t.set n a)).trans
        (List.Perm.cons x (ih n hn a))).trans (List.Perm.swap a x t)

theorem lswap_length {α : Type} (l : List α) (i j : Nat) :
    (lswap l i j).length = l.length := by
  unfold lswap
  rcases l.get? i with _ | x <;> rcases l.get? j with _ | y <;>
    simp [List.length_set]

theorem lswap_getD {α : Type} (l : List α) (i j k : Nat) (d : α)
    (hi : i < l.length) (hj : j < l.length) :
    (lswap l i j).getD k d =
      if k = j then l.getD i d
      else if k = i then l.getD j d
      else l.getD k d := by
  unfold lswap
  rw [List.get?_eq_get hi, List.get?_eq_get hj]
  by_cases hkj : k = j
  · subst hkj
    rw [if_pos rfl, getD_set_self _ _ _ _ (by simpa [List.length_set] using hj),
      getD_eq_get l i d hi]
  · rw [if_neg hkj, getD_set_ne _ _ _ _ _ (fun h => hkj h.symm)]
    by_cases hki : k = i
    · subst hki
      rw [if_pos rfl, getD_set_self _ _ _ _ hi, getD_eq_get l j d hj]
    · rw [if_neg hki, getD_set_ne _ _ _ _ _ (fun h => hki h.symm)]

theorem lswap_perm {α : Type} (l : List α) (i j : Nat)
    (hi : i < l.length) (hj : j < l.length) :
    List.Perm (lswap l i j) l := by
  by_cases hij : i = j
  · subst hij
    have hset : l.set i (l.get ⟨i, hi⟩) = l := by
      have := set_getD_self l i (l.get ⟨i, hi⟩) hi
      rwa [getD_eq_get l i _ hi] at this
    unfold lswap
    rw [List.get?_eq_get hi]
    show List.Perm ((l.set i (l.get ⟨i, hi⟩)).set i (l.get ⟨i, hi⟩)) l
    rw [hset, hset]
  · have hsw : lswap l i j = (l.set i (l.get ⟨j, hj⟩)).set j (l.get ⟨i, hi⟩) := by
      unfold lswap
      rw [List.get?_eq_get hi, List.get?_eq_get hj]
    set L := l.set i (l.get ⟨j, hj⟩) with hL
    have hjL : j < L.length := by simpa [hL, List.length_set] using hj
    have hLj : L.get ⟨j, hjL⟩ = l.get ⟨j, hj⟩ := by
      rw [← getD_eq_get L j (l.get ⟨j, hj⟩) hjL, hL,
        getD_set_ne _ _ _ _ _ hij, getD_eq_get l j _ hj]
    have p1 : List.Perm (L.get ⟨j, hjL⟩ :: L.set j (l.get ⟨i, hi⟩))
        ((l.get ⟨i, hi⟩) :: L) := get_cons_set_perm L j hjL _
    have p2 : List.Perm (l.get ⟨i, hi⟩ :: L) ((l.get ⟨j, hj⟩) :: l) :=
      get_cons_set_perm l i hi _
    have : List.Perm (l.get ⟨j, hj⟩ :: lswap l i j) (l.get ⟨j, hj⟩ :: l) := by
      rw [hsw, ← hLj]
      exact List.Perm.trans p1 (by rw [hLj] at p1 ⊢; exact p2)
    exact List.Perm.cons_inv this

theorem set_set_perm {α : Type} (l : List α) (i j : Nat) (tmp d : α)
    (hij : i ≠ j) (hi : i < l.length) (hj : j < l.length) :
    List.Perm ((l.set i (l.getD j d)).set j tmp) (l.set i tmp) := by
  set v := l.getD j d with hv
  set L := l.set i v with hL
  have hjL : j < L.length := by simpa [hL, List.length_set] using hj
  have hLj : L.get ⟨j, hjL⟩ = v := by
    rw [← getD_eq_get L j d hjL, hL, getD_set_ne _ _ _ _ _ hij, hv]
  have p1 : List.Perm (v :: L.set j tmp) (tmp :: L) := by
    have := get_cons_set_perm L j hjL tmp
    rwa [hLj] at this
  have p2 : List.Perm (l.get ⟨i, hi⟩ :: L) (v :: l) := get_cons_set_perm l i hi v
  have p3 : List.Perm (l.get ⟨i, hi⟩ :: l.set i tmp) (tmp :: l) :=
    get_cons_set_perm l i hi tmp
  have big : List.Perm (l.get ⟨i, hi⟩ :: v :: L.set j tmp)
      (l.get ⟨i, hi⟩ :: v :: l.set i tmp) := by
    refine ((List.Perm.cons _ p1).trans ?_)
    refine (List.Perm.swap tmp (l.get ⟨i, hi⟩) L).trans ?_
    refine (List.Perm.cons tmp p2).trans ?_
    refine (List.Perm.swap v tmp l).trans ?_
    refine (List.Perm.cons v p3.symm).trans ?_
    exact List.Perm.swap (l.get ⟨i, hi⟩) v (l.set i tmp)
  exact List.Perm.cons_inv (List.Perm.cons_inv big)

/-! ### Verification of the introsort port, part 2: the partition scans. -/

theorem scanUp_spec {α : Type} [Inhabited α] (key : α → Nat) (l : List α)
    (vp : Nat) (m : Nat) (hm : m < l.length)
    (hstop : ¬ key (l.getD m default) < vp) :
    ∀ (fuel i : Nat), i < m → m - i ≤ fuel →
      i < scanUp key l vp i fuel ∧ scanUp key l vp i fuel ≤ m ∧
      ¬ key (l.getD (scanUp key l vp i fuel) default) < vp ∧
      ∀ idx, i < idx → idx < scanUp key l vp i fuel →
        key (l.getD idx default) < vp := by
  intro fuel
  induction fuel with
  | zero =>
    intro i hi hfuel
    exact absurd hi (by omega)
  | succ f ih =>
    intro i hi hfuel
    have heq : scanUp key l vp i (f + 1) =
        if i + 1 + 1 < l.length && key (l.getD (i + 1) default) < vp then
          scanUp key l vp (i + 1) f
        else i + 1 := rfl
    rw [heq]
    by_cases hjm : i + 1 = m
    · have hcond : (decide (i + 1 + 1 < l.length) &&
          decide (key (l.getD (i + 1) default) < vp)) = false := by
        rw [hjm, decide_eq_false hstop, Bool.and_false]
      rw [hcond, if_neg (by simp)]
      refine ⟨by omega, by omega, by rw [hjm]; exact hstop, ?_⟩
      intro idx h1 h2
      omega
    · have hjlt : i + 1 < m := by omega
      by_cases hkey : key (l.getD (i + 1) default) < vp
      · have hcond : (decide (i + 1 + 1 < l.length) &&
            decide (key (l.getD (i + 1) default) < vp)) = true := by
          rw [decide_eq_true (show i + 1 + 1 < l.length by omega),
            decide_eq_true hkey]
          rfl
        rw [hcond, if_pos rfl]
        obtain ⟨s1, s2, s3, s4⟩ := ih (i + 1) hjlt (by omega)
        refine ⟨by omega, s2, s3, ?_⟩
        intro idx h1 h2
        rcases Nat.eq_or_lt_of_le h1 with h1' | h1'
        · rw [← h1']
          exact hkey
        · exact s4 idx (by omega) h2
      · have hcond : (decide (i + 1 + 1 < l.length) &&
            decide (key (l.getD (i + 1) default) < vp)) = false := by
          rw [decide_eq_false hkey, Bool.and_false]
        rw [hcond, if_neg (by simp)]
        refine ⟨by omega, by omega, hkey, ?_⟩
        intro idx h1 h2
        omega

theorem scanDown_spec {α : Type} [Inhabited α] (key : α → Nat) (l : List α)
    (vp : Nat) (m : Nat) (hstop : ¬ vp < key (l.getD m default)) :
    ∀ (fuel j : Nat), m < j → j - m ≤ fuel →
      scanDown key l vp j fuel < j ∧ m ≤ scanDown key l vp j fuel ∧
      ¬ vp < key (l.getD (scanDown key l vp j fuel) default) ∧
      ∀ idx, scanDown key l vp j fuel < idx → idx < j →
        vp < key (l.getD idx default) := by
  intro fuel
  induction fuel with
  | zero =>
    intro j hj hfuel
    exact absurd hj (by omega)
  | succ f ih =>
    intro j hj hfuel
    have heq : scanDown key l vp j (f + 1) =
        if 0 < j - 1 && vp < key (l.getD (j - 1) default) then
          scanDown key l vp (j - 1) f
        else j - 1 := rfl
    rw [heq]
    by_cases him : j - 1 = m
    · have hcond : (decide (0 < j - 1) &&
          decide (vp < key (l.getD (j - 1) default))) = false := by
        rw [him, decide_eq_false hstop, Bool.and_false]
      rw [hcond, if_neg (by simp)]
      refine ⟨by omega, by omega, by rw [him]; exact hstop, ?_⟩
      intro idx h1 h2
      omega
    · have hgt : m < j - 1 := by omega
      by_cases hkey : vp < key (l.getD (j - 1) default)
      · have hcond : (decide (0 < j - 1) &&
            decide (vp < key (l.getD (j - 1) default))) = true := by
          rw [decide_eq_true (show 0 < j - 1 by omega), decide_eq_true hkey]
          rfl
        rw [hcond, if_pos rfl]
        obtain ⟨s1, s2, s3, s4⟩ := ih (j - 1) hgt (by omega)
        refine ⟨by omega, s2, s3, ?_⟩
        intro idx h1 h2
        by_cases hidx : idx < j - 1
        · exact s4 idx h1 hidx
        · have : idx = j - 1 := by omega
          rw [this]
          exact hkey
      · have hcond : (decide (0 < j - 1) &&
            decide (vp < key (l.getD (j - 1) default))) = false := by
          rw [decide_eq_false hkey, Bool.and_false]
        rw [hcond, if_neg (by simp)]
        refine ⟨by omega, by omega, hkey, ?_⟩
        intro idx h1 h2
        omega

/-- Invariant proof for the Hoare partition scan loop: the cursors
advance, stay within the run, and on exit the loop has arranged keys at
most `vp` strictly below the split point and keys at least `vp` from the
split point up; positions at or above the right cursor are never
touched. -/
theorem partLoop_spec {α : Type} [Inhabited α] (key : α → Nat) (vp : Nat)
    (n : Nat) (hn : 17 ≤ n) :
    ∀ (fuel : Nat) (l : List α) (pi pj : Nat),
      l.length = n →
      pj ≤ n - 2 →
      pi < pj →
      pj - pi ≤ fuel →
      (∀ idx, idx ≤ pi → key (l.getD idx default) ≤ vp) →
      (∀ idx, pj ≤ idx → idx < n → vp ≤ key (l.getD idx default)) →
      (partLoop key vp fuel l pi pj).1.length = n ∧
      List.Perm (partLoop key vp fuel l pi pj).1 l ∧
      pi < (partLoop key vp fuel l pi pj).2 ∧
      (partLoop key vp fuel l pi pj).2 ≤ n - 2 ∧
      (∀ idx, idx < (partLoop key vp fuel l pi pj).2 →
        key ((partLoop key vp fuel l pi pj).1.getD idx default) ≤ vp) ∧
      (∀ idx, (partLoop key vp fuel l pi pj).2 ≤ idx → idx < n →
        vp ≤ key ((partLoop key vp fuel l pi pj).1.getD idx default)) ∧
      (∀ idx, pj ≤ idx → idx < n →
        (partLoop key vp fuel l pi pj).1.getD idx default =
          l.getD idx default) := by
  intro fuel
  induction fuel with
  | zero =>
    intro l pi pj _ _ hpipj hfuel _ _
    exact absurd hpipj (by omega)
  | succ f ih =>
    intro l pi pj hlen hpj hpipj hfuel hI1 hI2
    have heq : partLoop key vp (f + 1) l pi pj =
        if scanDown key l vp pj (l.length + 1) ≤
            scanUp key l vp pi (l.length + 1) then
          (l, scanUp key l vp pi (l.length + 1))
        else
          partLoop key vp f
            (lswap l (scanUp key l vp pi (l.length + 1))
              (scanDown key l vp pj (l.length + 1)))
            (scanUp key l vp pi (l.length + 1))
            (scanDown key l vp pj (l.length + 1)) := rfl
    have hstopUp : ¬ key (l.getD (n - 2) default) < vp :=
      not_lt.mpr (hI2 (n - 2) hpj (by omega))
    have hstopDown : ¬ vp < key (l.getD pi default) :=
      not_lt.mpr (hI1 pi (le_refl pi))
    obtain ⟨u1, u2, u3, u4⟩ := scanUp_spec key l vp (n - 2) (by omega)
      hstopUp (l.length + 1) pi (by omega) (by omega)
    obtain ⟨d1, d2, d3, d4⟩ := scanDown_spec key l vp pi hstopDown
      (l.length + 1) pj hpipj (by omega)
    set pi' := scanUp key l vp pi (l.length + 1) with hpidef
    set pj' := scanDown key l vp pj (l.length + 1) with hpjdef
    by_cases hbr : pj' ≤ pi'
    · rw [heq, if_pos hbr]
      refine ⟨hlen, List.Perm.refl l, u1, u2, ?_, ?_, fun idx _ _ => rfl⟩
      · intro idx hidx
        by_cases hle : idx ≤ pi
        · exact hI1 idx hle
        · exact le_of_lt (u4 idx (by omega) hidx)
      · intro idx hge hlt
        rcases Nat.eq_or_lt_of_le hge with heq' | hgt
        · rw [← heq']
          exact not_lt.mp u3
        · by_cases hpjle : pj ≤ idx
          · exact hI2 idx hpjle hlt
          · exact le_of_lt (d4 idx (by omega) (by omega))
    · rw [heq, if_neg hbr]
      have hbr' : pi' < pj' := by omega
      have hpiL : pi' < l.length := by omega
      have hpjL : pj' < l.length := by omega
      have hg := fun (k : Nat) =>
        lswap_getD l pi' pj' k (default : α) hpiL hpjL
      have hlen2 : (lswap l pi' pj').length = n := by
        rw [lswap_length, hlen]
      have hI1' : ∀ idx, idx ≤ pi' →
          key ((lswap l pi' pj').getD idx default) ≤ vp := by
        intro idx hidx
        rcases Nat.eq_or_lt_of_le hidx with hidx' | hidx'
        · rw [hidx', hg pi', if_neg (by omega), if_pos rfl]
          exact not_lt.mp d3
        · rw [hg idx, if_neg (by omega), if_neg (by omega)]
          by_cases hle : idx ≤ pi
          · exact hI1 idx hle
          · exact le_of_lt (u4 idx (by omega) hidx')
      have hI2' : ∀ idx, pj' ≤ idx → idx < n →
          vp ≤ key ((lswap l pi' pj').getD idx default) := by
        intro idx hge hlt
        rcases Nat.eq_or_lt_of_le hge with hidx' | hidx'
        · rw [← hidx', hg pj', if_pos rfl]
          exact not_lt.mp u3
        · rw [hg idx, if_neg (by omega), if_neg (by omega)]
          by_cases hpjle : pj ≤ idx
          · exact hI2 idx hpjle hlt
          · exact le_of_lt (d4 idx (by omega) (by omega))
      obtain ⟨t1, t2, t3, t4, t5, t6, t7⟩ := ih (lswap l pi' pj') pi' pj'
        hlen2 (by omega) hbr' (by omega) hI1' hI2'
      refine ⟨t1, t2.trans (lswap_perm l pi' pj' hpiL hpjL), by omega, t4,
        t5, t6, ?_⟩
      intro idx hge hlt
      rw [t7 idx (by omega) hlt, hg idx, if_neg (by omega),
        if_neg (by omega)]

/-- Correctness of one partition step on a run of at least 17 elements:
the result is a permutation of the run with the same length, the split
point is strictly inside the run, and the key at the split point
dominates everything below it and is dominated by everything above. -/
theorem partitionSeg_spec {α : Type} [Inhabited α] (key : α → Nat)
    (l : List α) (h17 : 17 ≤ l.length) :
    (partitionSeg key l).1.length = l.length ∧
    List.Perm (partitionSeg key l).1 l ∧
    0 < (partitionSeg key l).2 ∧
    (partitionSeg key l).2 ≤ l.length - 2 ∧
    (∀ idx, idx < (partitionSeg key l).2 →
      key ((partitionSeg key l).1.getD idx default) ≤
        key ((partitionSeg key l).1.getD (partitionSeg key l).2 default)) ∧
    (∀ idx, (partitionSeg key l).2 < idx → idx < l.length →
      key ((partitionSeg key l).1.getD (partitionSeg key l).2 default) ≤
        key ((partitionSeg key l).1.getD idx default)) := by
  set n := l.length with hn
  set pm := (n - 1) / 2 with hpm
  have hpm8 : 8 ≤ pm := by omega
  have hpmlt : pm < n - 2 := by omega
  set l1 := if key (l.getD pm default) < key (l.getD 0 default) then
    lswap l pm 0 else l with hl1
  set l2 := if key (l1.getD (n - 1) default) < key (l1.getD pm default) then
    lswap l1 (n - 1) pm else l1 with hl2
  set l3 := if key (l2.getD pm default) < key (l2.getD 0 default) then
    lswap l2 pm 0 else l2 with hl3
  set vp := key (l3.getD pm default) with hvp
  set l4 := lswap l3 pm (n - 2) with hl4
  set P := partLoop key vp (n + 1) l4 0 (n - 2) with hP
  have heq : partitionSeg key l = (lswap P.1 P.2 (n - 2), P.2) := rfl
  -- lengths of the staged lists
  have len1 : l1.length = n := by
    rw [hl1]
    split <;> simp [lswap_length, hn]
  have len2 : l2.length = n := by
    rw [hl2]
    split <;> simp [lswap_length, len1]
  have len3 : l3.length = n := by
    rw [hl3]
    split <;> simp [lswap_length, len2]
  have len4 : l4.length = n := by
    rw [hl4, lswap_length, len3]
  -- permutations of the staged lists
  have perm1 : List.Perm l1 l := by
    rw [hl1]
    split
    · exact lswap_perm l pm 0 (by omega) (by omega)
    · exact List.Perm.refl l
  have perm2 : List.Perm l2 l1 := by
    rw [hl2]
    split
    · exact lswap_perm l1 (n - 1) pm (by omega) (by omega)
    · exact List.Perm.refl l1
  have perm3 : List.Perm l3 l2 := by
    rw [hl3]
    split
    · exact lswap_perm l2 pm 0 (by omega) (by omega)
    · exact List.Perm.refl l2
  have perm4 : List.Perm l4 l3 := by
    rw [hl4]
    exact lswap_perm l3 pm (n - 2) (by omega) (by omega)
  -- median-of-3 facts
  have F1 : key (l1.getD 0 default) ≤ key (l1.getD pm default) := by
    rw [hl1]
    by_cases hc : key (l.getD pm default) < key (l.getD 0 default)
    · rw [if_pos hc, lswap_getD l pm 0 0 default (by omega) (by omega),
        lswap_getD l pm 0 pm default (by omega) (by omega),
        if_pos rfl, if_neg (by omega), if_pos rfl]
      exact le_of_lt hc
    · rw [if_neg hc]
      exact not_lt.mp hc
  have F2a : key (l2.getD pm default) ≤ key (l2.getD (n - 1) default) := by
    rw [hl2]
    by_cases hc : key (l1.getD (n - 1) default) < key (l1.getD pm default)
    · rw [if_pos hc, lswap_getD l1 (n - 1) pm pm default (by omega) (by omega),
        lswap_getD l1 (n - 1) pm (n - 1) default (by omega) (by omega),
        if_pos rfl, if_neg (by omega), if_pos rfl]
      exact le_of_lt hc
    · rw [if_neg hc]
      exact not_lt.mp hc
  have F2z : l2.getD 0 default = l1.getD 0 default := by
    rw [hl2]
    split
    · rw [lswap_getD l1 (n - 1) pm 0 default (by omega) (by omega),
        if_neg (by omega), if_neg (by omega)]
    · rfl
  have F3 : key (l2.getD 0 default) ≤ key (l2.getD (n - 1) default) := by
    rw [hl2]
    by_cases hc : key (l1.getD (n - 1) default) < key (l1.getD pm default)
    · have e0 : (lswap l1 (n - 1) pm).getD 0 default = l1.getD 0 default := by
        rw [lswap_getD l1 (n - 1) pm 0 default (by omega) (by omega),
          if_neg (by omega), if_neg (by omega)]
      have e1 : (lswap l1 (n - 1) pm).getD (n - 1) default =
          l1.getD pm default := by
        rw [lswap_getD l1 (n - 1) pm (n - 1) default (by omega) (by omega),
          if_neg (by omega), if_pos rfl]
      rw [if_pos hc, e0, e1]
      exact F1
    · rw [if_neg hc]
      exact le_trans F1 (not_lt.mp hc)
  have G1 : key (l3.getD 0 default) ≤ vp := by
    rw [hvp, hl3]
    by_cases hc : key (l2.getD pm default) < key (l2.getD 0 default)
    · rw [if_pos hc, lswap_getD l2 pm 0 0 default (by omega) (by omega),
        lswap_getD l2 pm 0 pm default (by omega) (by omega),
        if_pos rfl, if_neg (by omega), if_pos rfl]
      exact le_of_lt hc
    · rw [if_neg hc]
      exact not_lt.mp hc
  have G2 : vp ≤ key (l3.getD (n - 1) default) := by
    rw [hvp, hl3]
    by_cases hc : key (l2.getD pm default) < key (l2.getD 0 default)
    · rw [if_pos hc, lswap_getD l2 pm 0 pm default (by omega) (by omega),
        lswap_getD l2 pm 0 (n - 1) default (by omega) (by omega),
        if_neg (by omega), if_pos rfl, if_neg (by omega), if_neg (by omega)]
      exact F3
    · rw [if_neg hc]
      exact F2a
  -- facts about l4 = lswap l3 pm (n-2)
  have hg4 := fun (k : Nat) =>
    lswap_getD l3 pm (n - 2) k (default : α) (by omega) (by omega)
  have L40 : key (l4.getD 0 default) ≤ vp := by
    rw [hl4, hg4 0, if_neg (by omega), if_neg (by omega)]
    exact G1
  have L4piv : key (l4.getD (n - 2) default) = vp := by
    rw [hl4, hg4 (n - 2), if_pos rfl, hvp]
  have L4top : vp ≤ key (l4.getD (n - 1) default) := by
    rw [hl4, hg4 (n - 1), if_neg (by omega), if_neg (by omega)]
    exact G2
  -- run the scan loop
  obtain ⟨q1, q2, q3, q4, q5, q6, q7⟩ := partLoop_spec key vp n h17
    (n + 1) l4 0 (n - 2) len4 (le_refl _) (by omega) (by omega)
    (fun idx hidx => by
      have : idx = 0 := by omega
      rw [this]
      exact L40)
    (fun idx hge hlt => by
      rcases Nat.eq_or_lt_of_le hge with h' | h'
      · rw [← h', L4piv]
      · have : idx = n - 1 := by omega
        rw [this]
        exact L4top)
  rw [← hP] at q1 q2 q3 q4 q5 q6 q7
  have keyPn2 : key (P.1.getD (n - 2) default) = vp := by
    rw [q7 (n - 2) (le_refl _) (by omega)]
    exact L4piv
  have hgP := fun (k : Nat) =>
    lswap_getD P.1 P.2 (n - 2) k (default : α) (by omega) (by omega)
  have keyRes : key ((lswap P.1 P.2 (n - 2)).getD P.2 default) = vp := by
    by_cases hP2 : P.2 = n - 2
    · rw [hgP P.2, if_pos hP2, hP2, keyPn2]
    · rw [hgP P.2, if_neg hP2, if_pos rfl, keyPn2]
  rw [heq]
  refine ⟨by rw [lswap_length, q1], ?_, q3, q4, ?_, ?_⟩
  · exact ((lswap_perm P.1 P.2 (n - 2) (by omega) (by omega)).trans q2).trans
      ((perm4.trans perm3).trans (perm2.trans perm1))
  · intro idx hidx
    rw [keyRes, hgP idx, if_neg (by omega), if_neg (by omega)]
    exact q5 idx hidx
  · intro idx hgt hlt
    rw [keyRes]
    by_cases hidx : idx = n - 2
    · rw [hgP idx, if_pos hidx]
      exact q6 P.2 (le_refl _) (by omega)
    · rw [hgP idx, if_neg hidx, if_neg (by omega)]
      exact q6 idx (by omega) hlt

/-! ### Verification of the introsort port, part 5: the heapsort fallback.

`npHeapsort` is the 1-indexed bottom-up heapsort `npy_aheapsort` falls
back to when the quicksort depth budget is exhausted.  The sift step is
specified with the classical hole invariants: heap links not touching
the hole hold, the hole's children fit under the hole's parent, and the
value being placed fits under the hole's parent. -/

theorem getD_drop {α : Type} [Inhabited α] (l : List α) (n i : Nat) :
    (l.drop n).getD i default = l.getD (n + i) default := by
  simp [List.getD, List.getElem?_drop]

theorem getD_take {α : Type} [Inhabited α] (l : List α) (n i : Nat)
    (h : i < n) : (l.take n).getD i default = l.getD i default := by
  simp [List.getD, List.getElem?_take, h]

theorem getD_mem {α : Type} [Inhabited α] (l : List α) (i : Nat)
    (h : i < l.length) : l.getD i default ∈ l := by
  rw [getD_eq_get l i default h]
  exact List.get_mem l i h

theorem mem_getD_of_mem {α : Type} [Inhabited α] (l : List α) (x : α)
    (h : x ∈ l) : ∃ i, i < l.length ∧ x = l.getD i default := by
  obtain ⟨i, hi⟩ := List.mem_iff_get.mp h
  exact ⟨i.1, i.2, by rw [getD_eq_get l i.1 default i.2]; exact hi.symm⟩

theorem pairwise_of_getD {α : Type} [Inhabited α] (key : α → Nat)
    (l : List α)
    (h : ∀ i j, i < j → j < l.length →
      key (l.getD i default) ≤ key (l.getD j default)) :
    l.Pairwise (fun u v => key u ≤ key v) := by
  rw [List.pairwise_iff_get]
  intro i j hij
  have h1 : l.getD i.1 default = l.get i := by
    simp [List.getD, List.getElem?_eq_getElem i.2]
  have h2 : l.getD j.1 default = l.get j := by
    simp [List.getD, List.getElem?_eq_getElem j.2]
  rw [← h1, ← h2]
  exact h i.1 j.1 hij j.2

theorem drop_eq_of_getD {α : Type} [Inhabited α] (A B : List α) (n : Nat)
    (hlen : A.length = B.length)
    (h : ∀ idx, n ≤ idx → A.getD idx default = B.getD idx default) :
    A.drop n = B.drop n := by
  apply List.ext_get (by simp [hlen])
  intro i h1 h2
  rw [← getD_eq_get (A.drop n) i default h1,
    ← getD_eq_get (B.drop n) i default h2, getD_drop, getD_drop]
  exact h (n + i) (Nat.le_add_right n i)

theorem take_perm_of_perm_drop {α : Type} (A B : List α) (n : Nat)
    (hperm : List.Perm A B) (hdrop : A.drop n = B.drop n) :
    List.Perm (A.take n) (B.take n) := by
  apply (List.perm_append_right_iff (A.drop n)).mp
  rw [List.take_append_drop, hdrop, List.take_append_drop]
  exact hperm

theorem heapSift_spec {α : Type} [Inhabited α] (key : α → Nat) (tmp : α)
    (ρ n : Nat) (hρ1 : 1 ≤ ρ) :
    ∀ (fuel : Nat) (l : List α) (h j : Nat), j = h + h →
      n ≤ l.length → ρ ≤ h → h ≤ n → n + 1 - h ≤ fuel →
      (∀ k, 2 ≤ k → k ≤ n → ρ ≤ k / 2 → k ≠ h → k / 2 ≠ h →
        key (l.getD (k - 1) default) ≤ key (l.getD (k / 2 - 1) default)) →
      (∀ k, 2 ≤ k → k ≤ n → k / 2 = h → ρ ≤ h / 2 →
        key (l.getD (k - 1) default) ≤ key (l.getD (h / 2 - 1) default)) →
      (ρ ≤ h / 2 → key tmp ≤ key (l.getD (h / 2 - 1) default)) →
      (heapSift key tmp fuel l h j n).length = l.length ∧
      List.Perm (heapSift key tmp fuel l h j n) (l.set (h - 1) tmp) ∧
      (∀ idx, n ≤ idx → (heapSift key tmp fuel l h j n).getD idx default =
        l.getD idx default) ∧
      (∀ k, 2 ≤ k → k ≤ n → ρ ≤ k / 2 →
        key ((heapSift key tmp fuel l h j n).getD (k - 1) default) ≤
          key ((heapSift key tmp fuel l h j n).getD (k / 2 - 1) default)) := by
  intro fuel
  induction fuel with
  | zero =>
    intro l h j hj hlen hρh hhn hfuel _ _ _
    exact absurd hfuel (by omega)
  | succ f ih =>
    intro l h j hj hlen hρh hhn hfuel hA hB hC
    subst hj
    set jsel := if h + h < n &&
        key (l.getD (h + h - 1) default) < key (l.getD (h + h) default) then
      h + h + 1 else h + h with hjsel
    have heq : heapSift key tmp (f + 1) l h (h + h) n =
        if h + h ≤ n then
          if key tmp < key (l.getD (jsel - 1) default) then
            heapSift key tmp f (l.set (h - 1) (l.getD (jsel - 1) default))
              jsel (jsel + jsel) n
          else l.set (h - 1) tmp
        else l.set (h - 1) tmp := rfl
    have hksel : (jsel = h + h + 1 ∧ h + h < n ∧
          key (l.getD (h + h - 1) default) < key (l.getD (h + h) default)) ∨
        (jsel = h + h ∧ (h + h < n →
          key (l.getD (h + h) default) ≤ key (l.getD (h + h - 1) default))) := by
      by_cases h1 : h + h < n
      · by_cases h2 : key (l.getD (h + h - 1) default) <
            key (l.getD (h + h) default)
        · left
          refine ⟨?_, h1, h2⟩
          rw [hjsel, decide_eq_true h1, Bool.true_and, decide_eq_true h2,
            if_pos rfl]
        · right
          refine ⟨?_, fun _ => not_lt.mp h2⟩
          rw [hjsel, decide_eq_true h1, Bool.true_and, decide_eq_false h2]
          simp
      · right
        refine ⟨?_, fun hcon => absurd hcon h1⟩
        rw [hjsel, decide_eq_false h1, Bool.false_and]
        simp
    have hjlo : h + h ≤ jsel := by
      rcases hksel with ⟨e, _, _⟩ | ⟨e, _⟩ <;> omega
    have hjhi : jsel ≤ h + h + 1 := by
      rcases hksel with ⟨e, _, _⟩ | ⟨e, _⟩ <;> omega
    by_cases hbr : h + h ≤ n
    · have hjn : jsel ≤ n := by
        rcases hksel with ⟨e, hlt, _⟩ | ⟨e, _⟩ <;> omega
      have hmax : ∀ k, 2 ≤ k → k ≤ n → k / 2 = h →
          key (l.getD (k - 1) default) ≤ key (l.getD (jsel - 1) default) := by
        intro k hk2 hkn hkh
        have hk : k = h + h ∨ k = h + h + 1 := by omega
        rcases hksel with ⟨e, hlt, hkey⟩ | ⟨e, hkey⟩
        · rcases hk with hk | hk
          · rw [hk, e]
            exact le_of_lt hkey
          · rw [hk, e]
        · rcases hk with hk | hk
          · rw [hk, e]
          · rw [hk, e]
            exact hkey (by omega)
      by_cases hrec : key tmp < key (l.getD (jsel - 1) default)
      · have hstep : heapSift key tmp (f + 1) l h (h + h) n =
            heapSift key tmp f (l.set (h - 1) (l.getD (jsel - 1) default))
              jsel (jsel + jsel) n := by
          rw [heq, if_pos hbr, if_pos hrec]
        set l2 := l.set (h - 1) (l.getD (jsel - 1) default) with hl2
        have hl2len : n ≤ l2.length := by
          rw [hl2, List.length_set]
          exact hlen
        have hg2 : ∀ p, p ≠ h - 1 → l2.getD p default = l.getD p default := by
          intro p hp
          rw [hl2]
          exact getD_set_ne l (h - 1) p _ default (fun hcon => hp hcon.symm)
        have hg2h : l2.getD (h - 1) default = l.getD (jsel - 1) default := by
          rw [hl2]
          exact getD_set_self l (h - 1) _ default (by omega)
        have hjs2 : jsel / 2 = h := by omega
        have hA2 : ∀ k, 2 ≤ k → k ≤ n → ρ ≤ k / 2 → k ≠ jsel →
            k / 2 ≠ jsel →
            key (l2.getD (k - 1) default) ≤
              key (l2.getD (k / 2 - 1) default) := by
          intro k hk2 hkn hρk hkj hk2j
          by_cases hkh : k = h
          · have hg1 : l2.getD (k - 1) default = l.getD (jsel - 1) default := by
              rw [hkh]
              exact hg2h
            rw [hg1, hg2 (k / 2 - 1) (by omega)]
            have hBj := hB jsel (by omega) hjn (by omega) (by omega)
            rw [hkh]
            exact hBj
          · by_cases hk2h : k / 2 = h
            · rw [hg2 (k - 1) (by omega), hk2h, hg2h]
              exact hmax k hk2 hkn hk2h
            · rw [hg2 (k - 1) (by omega), hg2 (k / 2 - 1) (by omega)]
              exact hA k hk2 hkn hρk hkh hk2h
        have hB2 : ∀ k, 2 ≤ k → k ≤ n → k / 2 = jsel → ρ ≤ jsel / 2 →
            key (l2.getD (k - 1) default) ≤
              key (l2.getD (jsel / 2 - 1) default) := by
          intro k hk2 hkn hkj2 _
          rw [hjs2, hg2h, hg2 (k - 1) (by omega)]
          have hAk := hA k hk2 hkn (by omega) (by omega) (by omega)
          rw [hkj2] at hAk
          exact hAk
        have hC2 : ρ ≤ jsel / 2 →
            key tmp ≤ key (l2.getD (jsel / 2 - 1) default) := by
          intro _
          rw [hjs2, hg2h]
          exact le_of_lt hrec
        obtain ⟨t1, t2, t3, t4⟩ := ih l2 jsel (jsel + jsel) rfl hl2len
          (by omega) hjn (by omega) hA2 hB2 hC2
        rw [hstep]
        refine ⟨t1.trans (by rw [hl2, List.length_set]), ?_, ?_, t4⟩
        · refine t2.trans ?_
          rw [hl2]
          exact set_set_perm l (h - 1) (jsel - 1) tmp default (by omega)
            (by omega) (by omega)
        · intro idx hidx
          rw [t3 idx hidx, hg2 idx (by omega)]
      · have hstep : heapSift key tmp (f + 1) l h (h + h) n =
            l.set (h - 1) tmp := by
          rw [heq, if_pos hbr, if_neg hrec]
        rw [hstep]
        refine ⟨List.length_set l _ _, List.Perm.refl _, ?_, ?_⟩
        · intro idx hidx
          exact getD_set_ne l (h - 1) idx tmp default (by omega)
        · intro k hk2 hkn hρk
          by_cases hkh : k = h
          · have e1 : (l.set (h - 1) tmp).getD (k - 1) default = tmp := by
              rw [hkh]
              exact getD_set_self l (h - 1) tmp default (by omega)
            have e2 : (l.set (h - 1) tmp).getD (k / 2 - 1) default =
                l.getD (k / 2 - 1) default :=
              getD_set_ne l (h - 1) (k / 2 - 1) tmp default (by omega)
            rw [e1, e2, hkh]
            exact hC (by omega)
          · by_cases hk2h : k / 2 = h
            · have e1 : (l.set (h - 1) tmp).getD (k - 1) default =
                  l.getD (k - 1) default :=
                getD_set_ne l (h - 1) (k - 1) tmp default (by omega)
              have e2 : (l.set (h - 1) tmp).getD (k / 2 - 1) default = tmp := by
                rw [hk2h]
                exact getD_set_self l (h - 1) tmp default (by omega)
              rw [e1, e2]
              exact le_trans (hmax k hk2 hkn hk2h) (not_lt.mp hrec)
            · have e1 : (l.set (h - 1) tmp).getD (k - 1) default =
                  l.getD (k - 1) default :=
                getD_set_ne l (h - 1) (k - 1) tmp default (by omega)
              have e2 : (l.set (h - 1) tmp).getD (k / 2 - 1) default =
                  l.getD (k / 2 - 1) default :=
                getD_set_ne l (h - 1) (k / 2 - 1) tmp default (by omega)
              rw [e1, e2]
              exact hA k hk2 hkn hρk hkh hk2h
    · have hstep : heapSift key tmp (f + 1) l h (h + h) n =
          l.set (h - 1) tmp := by
        rw [heq, if_neg hbr]
      rw [hstep]
      refine ⟨List.length_set l _ _, List.Perm.refl _, ?_, ?_⟩
      · intro idx hidx
        exact getD_set_ne l (h - 1) idx tmp default (by omega)
      · intro k hk2 hkn hρk
        by_cases hkh : k = h
        · have e1 : (l.set (h - 1) tmp).getD (k - 1) default = tmp := by
            rw [hkh]
            exact getD_set_self l (h - 1) tmp default (by omega)
          have e2 : (l.set (h - 1) tmp).getD (k / 2 - 1) default =
              l.getD (k / 2 - 1) default :=
            getD_set_ne l (h - 1) (k / 2 - 1) tmp default (by omega)
          rw [e1, e2, hkh]
          exact hC (by omega)
        · by_cases hk2h : k / 2 = h
          · exact absurd hkn (by omega)
          · have e1 : (l.set (h - 1) tmp).getD (k - 1) default =
                l.getD (k - 1) default :=
              getD_set_ne l (h - 1) (k - 1) tmp default (by omega)
            have e2 : (l.set (h - 1) tmp).getD (k / 2 - 1) default =
                l.getD (k / 2 - 1) default :=
              getD_set_ne l (h - 1) (k / 2 - 1) tmp default (by omega)
            rw [e1, e2]
            exact hA k hk2 hkn hρk hkh hk2h

theorem heapBuild_spec {α : Type} [Inhabited α] (key : α → Nat) (n : Nat) :
    ∀ (m : Nat) (l : List α), n ≤ l.length → m ≤ n / 2 →
      (∀ k, 2 ≤ k → k ≤ n → m < k / 2 →
        key (l.getD (k - 1) default) ≤ key (l.getD (k / 2 - 1) default)) →
      (heapBuild key m l n).length = l.length ∧
      List.Perm (heapBuild key m l n) l ∧
      (∀ idx, n ≤ idx → (heapBuild key m l n).getD idx default =
        l.getD idx default) ∧
      heapOrdered key (heapBuild key m l n) n := by
  intro m
  induction m with
  | zero =>
    intro l hlen hm hpre
    exact ⟨rfl, List.Perm.refl l, fun idx _ => rfl,
      fun k hk2 hkn => hpre k hk2 hkn (by omega)⟩
  | succ mm ih =>
    intro l hlen hm hpre
    have heq : heapBuild key (mm + 1) l n =
        heapBuild key mm
          (heapSift key (l.getD mm default) (n + 2) l (mm + 1)
            ((mm + 1) * 2) n) n := rfl
    obtain ⟨s1, s2, s3, s4⟩ := heapSift_spec key (l.getD mm default)
      (mm + 1) n (by omega) (n + 2) l (mm + 1) ((mm + 1) * 2) (by ring)
      hlen (le_refl _) (by omega) (by omega)
      (fun k hk2 hkn hρk hkh hk2h => hpre k hk2 hkn (by omega))
      (fun k _ _ _ hcon => absurd hcon (by omega))
      (fun hcon => absurd hcon (by omega))
    set l2 := heapSift key (l.getD mm default) (n + 2) l (mm + 1)
      ((mm + 1) * 2) n with hl2
    have s2' : List.Perm l2 l := by
      have e : l.set (mm + 1 - 1) (l.getD mm default) = l :=
        set_getD_self l mm default (by omega)
      rw [e] at s2
      exact s2
    obtain ⟨b1, b2, b3, b4⟩ := ih l2 (by rw [s1]; exact hlen) (by omega)
      (fun k hk2 hkn hmk => s4 k hk2 hkn (by omega))
    rw [heq]
    refine ⟨?_, b2.trans s2', ?_, b4⟩
    · rw [b1, s1]
    · intro idx hidx
      rw [b3 idx hidx, s3 idx hidx]

theorem heap_root_max {α : Type} [Inhabited α] (key : α → Nat) (l : List α)
    (m : Nat) (hh : heapOrdered key l m) :
    ∀ k, 1 ≤ k → k ≤ m →
      key (l.getD (k - 1) default) ≤ key (l.getD 0 default) := by
  intro k
  induction k using Nat.strong_induction_on with
  | _ k ih =>
    intro hk1 hkm
    rcases Nat.lt_or_ge k 2 with h2 | h2
    · have hk : k = 1 := by omega
      rw [hk]
    · exact le_trans (hh k h2 hkm)
        (ih (k / 2) (by omega) (by omega) (by omega))

theorem heapExtract_spec {α : Type} [Inhabited α] (key : α → Nat) :
    ∀ (m : Nat) (l : List α), m ≤ l.length →
      heapOrdered key l m →
      (∀ p q, m ≤ p → p ≤ q → q < l.length →
        key (l.getD p default) ≤ key (l.getD q default)) →
      (∀ p q, p < m → m ≤ q → q < l.length →
        key (l.getD p default) ≤ key (l.getD q default)) →
      (heapExtract key m l).length = l.length ∧
      List.Perm (heapExtract key m l) l ∧
      (∀ p q, p ≤ q → q < l.length →
        key ((heapExtract key m l).getD p default) ≤
          key ((heapExtract key m l).getD q default)) := by
  intro m
  induction m with
  | zero =>
    intro l hm hheap hsuf hdom
    exact ⟨rfl, List.Perm.refl l, fun p q hpq hq => hsuf p q (by omega) hpq hq⟩
  | succ mm ih =>
    cases mm with
    | zero =>
      intro l hm hheap hsuf hdom
      refine ⟨rfl, List.Perm.refl l, ?_⟩
      intro p q hpq hq
      rcases Nat.eq_or_lt_of_le hpq with he | hlt
      · rw [he]
      · rcases Nat.lt_or_ge p 1 with hp | hp
        · have hp0 : p = 0 := by omega
          rw [hp0]
          exact hdom 0 q (by omega) (by omega) hq
        · exact hsuf p q hp hpq hq
    | succ nn =>
      intro l hm hheap hsuf hdom
      have heq : heapExtract key (nn + 1 + 1) l =
          heapExtract key (nn + 1)
            (heapSift key (l.getD (nn + 1) default) (nn + 3)
              (l.set (nn + 1) (l.getD 0 default)) 1 2 (nn + 1)) := rfl
      set tmp := l.getD (nn + 1) default with htmp
      set lset := l.set (nn + 1) (l.getD 0 default) with hlset
      have hlsetlen : lset.length = l.length := by
        rw [hlset, List.length_set]
      obtain ⟨s1, s2, s3, s4⟩ := heapSift_spec key tmp 1 (nn + 1)
        (le_refl 1) (nn + 3) lset 1 2 rfl
        (by rw [hlsetlen]; omega) (le_refl 1) (by omega) (by omega)
        (by
          intro k hk2 hkn _ _ hk21
          have e1 : lset.getD (k - 1) default = l.getD (k - 1) default := by
            rw [hlset]
            exact getD_set_ne l (nn + 1) (k - 1) _ default (by omega)
          have e2 : lset.getD (k / 2 - 1) default =
              l.getD (k / 2 - 1) default := by
            rw [hlset]
            exact getD_set_ne l (nn + 1) (k / 2 - 1) _ default (by omega)
          rw [e1, e2]
          exact hheap k hk2 (by omega))
        (fun k _ _ _ hcon => absurd hcon (by omega))
        (fun hcon => absurd hcon (by omega))
      set R1 := heapSift key tmp (nn + 3) lset 1 2 (nn + 1) with hR1
      have hlen1 : R1.length = l.length := by rw [s1, hlsetlen]
      have hperm1 : List.Perm R1 l := by
        refine s2.trans ?_
        have e : lset.set (1 - 1) tmp = lset.set 0 tmp := rfl
        rw [e, hlset, htmp]
        refine (set_set_perm l (nn + 1) 0 (l.getD (nn + 1) default) default
          (by omega) (by omega) (by omega)).trans ?_
        rw [set_getD_self l (nn + 1) default (by omega)]
      have hRtop : R1.getD (nn + 1) default = l.getD 0 default := by
        rw [s3 (nn + 1) (le_refl _), hlset]
        exact getD_set_self l (nn + 1) _ default (by omega)
      have hRhigh : ∀ idx, nn + 2 ≤ idx →
          R1.getD idx default = l.getD idx default := by
        intro idx hidx
        rw [s3 idx (by omega), hlset]
        exact getD_set_ne l (nn + 1) idx _ default (by omega)
      have hheap2 : heapOrdered key R1 (nn + 1) :=
        fun k hk2 hkn => s4 k hk2 hkn (by omega)
      have hsuf2 : ∀ p q, nn + 1 ≤ p → p ≤ q → q < R1.length →
          key (R1.getD p default) ≤ key (R1.getD q default) := by
        intro p q hp hpq hq
        rcases Nat.eq_or_lt_of_le hp with he | hgt
        · rcases Nat.eq_or_lt_of_le hpq with he2 | hgt2
          · rw [he2]
          · rw [← he, hRtop, hRhigh q (by omega)]
            exact hdom 0 q (by omega) (by omega) (by omega)
        · rw [hRhigh p (by omega), hRhigh q (by omega)]
          exact hsuf p q (by omega) hpq (by omega)
      have hdropEq : R1.drop (nn + 1) = (lset.set (1 - 1) tmp).drop (nn + 1) := by
        apply drop_eq_of_getD _ _ _ (by rw [hlen1, List.length_set, hlsetlen])
        intro idx hidx
        rw [s3 idx hidx]
        have e : lset.set (1 - 1) tmp = lset.set 0 tmp := rfl
        rw [e]
        exact (getD_set_ne lset 0 idx tmp default (by omega)).symm
      have htakePerm : List.Perm (R1.take (nn + 1))
          ((lset.set (1 - 1) tmp).take (nn + 1)) :=
        take_perm_of_perm_drop _ _ _ s2 hdropEq
      have hprefmax : ∀ p, p < nn + 1 →
          key (R1.getD p default) ≤ key (l.getD 0 default) := by
        intro p hp
        have hmemA : R1.getD p default ∈ R1.take (nn + 1) := by
          rw [← getD_take R1 (nn + 1) p hp]
          exact getD_mem _ p (by simp [List.length_take]; omega)
        have hmemB := htakePerm.mem_iff.mp hmemA
        obtain ⟨i, hi, hx⟩ := mem_getD_of_mem _ _ hmemB
        have hilt : i < nn + 1 := by
          rw [List.length_take] at hi
          omega
        rw [hx, getD_take _ _ _ hilt]
        have e : lset.set (1 - 1) tmp = lset.set 0 tmp := rfl
        rw [e]
        by_cases hi0 : i = 0
        · rw [hi0, getD_set_self lset 0 tmp default (by rw [hlsetlen]; omega),
            htmp]
          exact heap_root_max key l (nn + 2) hheap (nn + 2) (by omega)
            (le_refl _)
        · rw [getD_set_ne lset 0 i tmp default (fun hcon => hi0 hcon.symm),
            hlset, getD_set_ne l (nn + 1) i _ default (by omega)]
          exact heap_root_max key l (nn + 2) hheap (i + 1) (by omega) (by omega)
      have hdom2 : ∀ p q, p < nn + 1 → nn + 1 ≤ q → q < R1.length →
          key (R1.getD p default) ≤ key (R1.getD q default) := by
        intro p q hp hq hqlen
        refine le_trans (hprefmax p hp) ?_
        rcases Nat.eq_or_lt_of_le hq with he | hgt
        · rw [← he, hRtop]
        · rw [hRhigh q (by omega)]
          exact hdom 0 q (by omega) (by omega) (by omega)
      obtain ⟨e1, e2, e3⟩ := ih R1 (by omega) hheap2 hsuf2 hdom2
      rw [heq]
      refine ⟨e1.trans hlen1, e2.trans hperm1, ?_⟩
      intro p q hpq hq
      exact e3 p q hpq (by omega)

theorem npHeapsort_spec {α : Type} [Inhabited α] (key : α → Nat)
    (l : List α) :
    (npHeapsort key l).length = l.length ∧
    List.Perm (npHeapsort key l) l ∧
    (npHeapsort key l).Pairwise (fun u v => key u ≤ key v) := by
  have heq : npHeapsort key l =
      heapExtract key l.length (heapBuild key (l.length / 2) l l.length) := rfl
  obtain ⟨b1, b2, b3, b4⟩ := heapBuild_spec key l.length (l.length / 2) l
    (le_refl _) (le_refl _) (fun k hk2 hkn hgt => absurd hgt (by omega))
  obtain ⟨e1, e2, e3⟩ := heapExtract_spec key l.length
    (heapBuild key (l.length / 2) l l.length) (le_of_eq b1.symm) b4
    (fun p q hp hpq hq => absurd hq (by omega))
    (fun p q hp hq hqlen => absurd hqlen (by omega))
  rw [heq]
  refine ⟨e1.trans b1, e2.trans b2, ?_⟩
  apply pairwise_of_getD
  intro i j hij hjlen
  exact e3 i j (le_of_lt hij) (by omega)

theorem npSortSeg_spec {α : Type} [Inhabited α] (key : α → Nat) :
    ∀ (fuel : Nat) (depth : Int) (l : List α), l.length < fuel →
      (npSortSeg key fuel depth l).Pairwise (fun u v => key u ≤ key v) ∧
      List.Perm (npSortSeg key fuel depth l) l := by
  intro fuel
  induction fuel with
  | zero =>
    intro depth l h
    exact absurd h (Nat.not_lt_zero _)
  | succ f ih =>
    intro depth l hlen
    have heq : npSortSeg key (f + 1) depth l =
        if l.length ≤ 16 then insSortL key l
        else if depth < 0 then npHeapsort key l
        else
          npSortSeg key f (depth - 1)
              ((partitionSeg key l).1.take (partitionSeg key l).2) ++
            (partitionSeg key l).1.getD (partitionSeg key l).2 default ::
              npSortSeg key f (depth - 1)
                ((partitionSeg key l).1.drop ((partitionSeg key l).2 + 1)) :=
      rfl
    by_cases h16 : l.length ≤ 16
    · rw [heq, if_pos h16]
      exact ⟨(insSortL_spec key l).1, (insSortL_spec key l).2.1⟩
    · by_cases hd : depth < 0
      · rw [heq, if_neg h16, if_pos hd]
        exact ⟨(npHeapsort_spec key l).2.2, (npHeapsort_spec key l).2.1⟩
      · rw [heq, if_neg h16, if_neg hd]
        obtain ⟨p1, p2, p3, p4, p5, p6⟩ := partitionSeg_spec key l (by omega)
        set p := partitionSeg key l with hp
        have hlt : p.2 < p.1.length := by omega
        have htake : (p.1.take p.2).length = p.2 := by
          rw [List.length_take]
          omega
        have hdrop : (p.1.drop (p.2 + 1)).length = l.length - p.2 - 1 := by
          rw [List.length_drop, p1]
          omega
        obtain ⟨a1, a2⟩ := ih (depth - 1) (p.1.take p.2) (by omega)
        obtain ⟨b1, b2⟩ := ih (depth - 1) (p.1.drop (p.2 + 1)) (by omega)
        have hdec : p.1.take p.2 ++ p.1.getD p.2 default :: p.1.drop (p.2 + 1)
            = p.1 := by
          rw [getD_eq_get p.1 p.2 default hlt, ← List.drop_eq_get_cons hlt,
            List.take_append_drop]
        have hvB : ∀ b ∈ npSortSeg key f (depth - 1) (p.1.drop (p.2 + 1)),
            key (p.1.getD p.2 default) ≤ key b := by
          intro b hb
          have hb2 : b ∈ p.1.drop (p.2 + 1) := b2.mem_iff.mp hb
          obtain ⟨i, hi, hbx⟩ := mem_getD_of_mem _ b hb2
          rw [hbx, getD_drop]
          refine p6 (p.2 + 1 + i) (by omega) ?_
          rw [List.length_drop, p1] at hi
          omega
        have hvA : ∀ a ∈ npSortSeg key f (depth - 1) (p.1.take p.2),
            key a ≤ key (p.1.getD p.2 default) := by
          intro a ha
          have ha2 : a ∈ p.1.take p.2 := a2.mem_iff.mp ha
          obtain ⟨i, hi, hax⟩ := mem_getD_of_mem _ a ha2
          rw [htake] at hi
          rw [hax, getD_take p.1 p.2 i hi]
          exact p5 i hi
        constructor
        · rw [List.pairwise_append]
          refine ⟨a1, ?_, ?_⟩
          · rw [List.pairwise_cons]
            exact ⟨hvB, b1⟩
          · intro a ha c hc
            rcases List.mem_cons.mp hc with hceq | hcB
            · rw [hceq]
              exact hvA a ha
            · exact le_trans (hvA a ha) (hvB c hcB)
        · refine (List.Perm.append a2 (List.Perm.cons _ b2)).trans ?_
          rw [hdec]
          exact p2

theorem sortRowsByStart_spec (l : List CourseRow) :
    (sortRowsByStart l).Pairwise (fun r r2 => rowKey r ≤ rowKey r2) ∧
    List.Perm (sortRowsByStart l) l := by
  unfold sortRowsByStart npArgsortModel
  exact npSortSeg_spec rowKey (l.length + 1) _ l (Nat.lt_succ_self _)

/-- C4 (corrected): for every session state and instant, the effective
today-schedule returned by `get_today_courses` is sorted ascending by
parsed start time and is a permutation of the merged frame; whenever the
merged frame has at most 16 rows, rows with equal parsed start times
additionally keep their pre-sort relative order (numpy insertion sorts
runs of at most 16 elements).  For longer frames the tie-order clause
fails: see the seventeen-row counterexample. -/
theorem c4_sorted_perm_ties_small (st : SessionState) (now : Int) :
    (get_today_courses st now).Pairwise (fun r r2 => rowKey r ≤ rowKey r2) ∧
    List.Perm (get_today_courses st now) (todayMerged st now) ∧
    ((todayMerged st now).length ≤ 16 → ∀ k : Nat,
      (get_today_courses st now).filter (fun r => rowKey r == k) =
        (todayMerged st now).filter (fun r => rowKey r == k)) := by
  cases hcd : st.course_data with
  | none =>
    have h1 : get_today_courses st now = [] := by
      unfold get_today_courses
      rw [hcd]
    have h2 : todayMerged st now = [] := by
      unfold todayMerged
      rw [hcd]
    rw [h1, h2]
    exact ⟨List.Pairwise.nil, List.Perm.refl _, fun _ _ => rfl⟩
  | some rows =>
    have h1 : get_today_courses st now = sortRowsByStart (todayMerged st now) := by
      unfold get_today_courses
      rw [hcd]
    rw [h1]
    obtain ⟨hs, hperm⟩ := sortRowsByStart_spec (todayMerged st now)
    refine ⟨hs, hperm, ?_⟩
    intro h16 k
    unfold sortRowsByStart
    rw [npArgsortModel_small rowKey _ h16]
    exact (insSortL_spec rowKey (todayMerged st now)).2.2 k

/-- The tie-stability half of the corrected C4 claim made concrete, by
applying `c4_sorted_perm_ties_small` itself at the two-row session with
one adjustment: the merged frame has at most 16 rows, so the rows
sharing the 08:00 start key come back in their pre-sort order. -/
theorem c4_sorted_perm_ties_small_witness :
    (todayMerged stOneAdj (20335 * 86400)).length ≤ 16 ∧
    (get_today_courses stOneAdj (20335 * 86400)).filter
        (fun r => rowKey r == 28800) =
      (todayMerged stOneAdj (20335 * 86400)).filter
        (fun r => rowKey r == 28800) :=
  ⟨by decide, (c4_sorted_perm_ties_small stOneAdj (20335 * 86400)).2.2
    (by decide) 28800⟩
